import Mathlib

/-!
# pyheatshrink: the `heatshrink` extension module (src/heatshrink.c)

A shallow embedding of the binding shim: the driver `_encode_to_out`, the
module functions `PyHS_encode` and `PyHS_decode`, and the calls they make to
the heatshrink encoder.  The encoder itself (heatshrink_encoder.h) is an
external library; it is taken as a parameter (`HeatshrinkEncoder`), so every
theorem holds for every encoder behaviour.

The driver loop of `_encode_to_out` need not terminate, so it is embedded as
a step function on an explicit driver state (`step`) that is iterated a given
number of times (`run`).  Every call made to the encoder is appended to a
call log, which is what the temporal properties are stated on.
-/

namespace PyHeatshrink

/-! ## Constants and result codes of heatshrink.c -/

/-- The macro DEFAULT_HEATSHRINK_WINDOW_SZ2 (line 25). -/
def DEFAULT_HEATSHRINK_WINDOW_SZ2 : Nat := 11

/-- The macro DEFAULT_HEATSHRINK_LOOKAHEAD_SZ2 (line 26). -/
def DEFAULT_HEATSHRINK_LOOKAHEAD_SZ2 : Nat := 4

/-- The enum PyHS_encode_res (lines 31-36). -/
inductive PyHS_encode_res where
  | PYHS_OK
  | PYHS_FAILED_SINK
  | PYHS_FAILED_POLL
  | PYHS_FAILED_FINISH
  deriving DecidableEq

/-- The integer value of each enumerator of PyHS_encode_res (lines 32-35). -/
def PyHS_encode_res.toInt : PyHS_encode_res → Int
  | .PYHS_OK => 0
  | .PYHS_FAILED_SINK => -1
  | .PYHS_FAILED_POLL => -2
  | .PYHS_FAILED_FINISH => -3

/-- Number of values of a size_t (an LP64 platform); `total_sunk_size += sunk_size`
wraps modulo this. -/
def SIZE_T_MOD : Nat := 2 ^ 64

/-- The local `out_size` of `_encode_to_out` (line 47). -/
def out_size : Nat := 4096

/-- Largest value of the C type int; `in_size` of `PyHS_encode` is an int (line 99). -/
def INT_MAX : Nat := 2 ^ 31 - 1

/-! ## The external encoder, as a parameter -/

/-- What heatshrink_encoder_sink hands back: its status and the value it
stores through the `input_size` out-parameter, with the encoder afterwards. -/
structure SinkRet (σ : Type) where
  res : Int
  sunk_size : Nat
  hse : σ

/-- What heatshrink_encoder_poll hands back: its status, the content of the
caller's buffer afterwards, the value stored through the `output_size`
out-parameter, and the encoder afterwards. -/
structure PollRet (σ : Type) where
  res : Int
  out_buf : List UInt8
  poll_size : Nat
  hse : σ

/-- What heatshrink_encoder_finish hands back. -/
structure FinishRet (σ : Type) where
  res : Int
  hse : σ

/-- The encoder interface of heatshrink_encoder.h, which is not part of this
source file: the operations the shim calls and the three status constants it
compares against.  `σ` is the type of encoder instances.
`alloc w l` is `none` when heatshrink_encoder_alloc returns NULL;
`sink hse bytes` is given the bytes `in_buf[0 .. size)` it is pointed at;
`poll hse buf n` is given the caller's buffer and its size. -/
structure HeatshrinkEncoder (σ : Type) where
  HSER_POLL_MORE : Int
  HSER_FINISH_DONE : Int
  HSER_FINISH_MORE : Int
  alloc : Nat → Nat → Option σ
  sink : σ → List UInt8 → SinkRet σ
  poll : σ → List UInt8 → Nat → PollRet σ
  finish : σ → FinishRet σ

/-! ## The growable output array -/

/-- Modelled from the spec: the growable output buffer used by callers to
accumulate produced bytes (dynamic_arrays.h is not among the sources).  It
holds the accumulated bytes; `freed` records that uint8_array_free released it. -/
structure UInt8Array where
  items : List UInt8
  freed : Bool
  deriving DecidableEq

/-- Modelled from the spec: uint8_array_create of dynamic_arrays.h, a fresh
empty growable buffer (the capacity is only a reservation). -/
def uint8_array_create (_capacity : Nat) : UInt8Array :=
  { items := [], freed := false }

/-- Modelled from the spec: uint8_array_insert of dynamic_arrays.h, which
accumulates the first `count` bytes of `buf` at the end of the array. -/
def uint8_array_insert (arr : UInt8Array) (buf : List UInt8) (count : Nat) : UInt8Array :=
  { arr with items := arr.items ++ buf.take count }

/-- Modelled from the spec: uint8_array_count of dynamic_arrays.h, the number
of accumulated bytes; reading it from a released array has no defined value
(`none`). -/
def uint8_array_count (arr : UInt8Array) : Option Nat :=
  if arr.freed then none else some arr.items.length

/-- Modelled from the spec: uint8_array_free of dynamic_arrays.h, which
releases the array (the output is discarded). -/
def uint8_array_free (arr : UInt8Array) : UInt8Array :=
  { arr with freed := true }

/-! ## The call log -/

/-- One call made to the encoder library, with its arguments and results.
`sink offset size res sunk` is the call
`heatshrink_encoder_sink(hse, &in_buf[offset], size, &sunk_size)`;
`poll n res buf k` is `heatshrink_encoder_poll(hse, out_buf, n, &poll_size)`
with the buffer content and `poll_size` it left. -/
inductive Call where
  | alloc (window_sz2 lookahead_sz2 : Nat)
  | sink (offset size : Nat) (res : Int) (sunk_size : Nat)
  | poll (size : Nat) (res : Int) (buf : List UInt8) (poll_size : Nat)
  | finish (res : Int)
  | free
  deriving DecidableEq

/-! ## `_encode_to_out` (lines 38-93) -/

/-- Where control is in `_encode_to_out`: at the top of the `while(1)` body
(line 54), at the poll of the do-while (line 68), at the test after the
do-while (line 75), or returned with a result (lines 60, 70, 87, 92). -/
inductive Pc where
  | at_sink
  | at_poll
  | at_finish
  | returned (r : PyHS_encode_res)
  deriving DecidableEq

/-- The variables of `_encode_to_out` that live across loop iterations,
with the encoder, the output array and the call log. -/
structure Driver (σ : Type) where
  pc : Pc
  hse : σ
  total_sunk_size : Nat
  out_buf : List UInt8
  out_arr : UInt8Array
  calls : List Call

/-- State on entry to `_encode_to_out`: `total_sunk_size = 0` (line 45);
`out_buf` is an uninitialised local array, so its content is arbitrary. -/
def Driver.init {σ : Type} (hse : σ) (out_buf : List UInt8) (out_arr : UInt8Array) :
    Driver σ :=
  { pc := .at_sink, hse := hse, total_sunk_size := 0, out_buf := out_buf,
    out_arr := out_arr, calls := [] }

/-- The sink call of line 55: the encoder is pointed at `&in_buf[total_sunk_size]`
and told that `in_size - total_sunk_size` bytes are there. -/
def sink_ret {σ : Type} (E : HeatshrinkEncoder σ) (in_buf : List UInt8) (d : Driver σ) :
    SinkRet σ :=
  E.sink d.hse ((in_buf.drop d.total_sunk_size).take (in_buf.length - d.total_sunk_size))

/-- The log entry of the sink call of line 55. -/
def sink_call {σ : Type} (E : HeatshrinkEncoder σ) (in_buf : List UInt8) (d : Driver σ) :
    Call :=
  Call.sink d.total_sunk_size (in_buf.length - d.total_sunk_size)
    (sink_ret E in_buf d).res (sink_ret E in_buf d).sunk_size

/-- The poll call of line 68, on the whole of `out_buf`. -/
def poll_ret {σ : Type} (E : HeatshrinkEncoder σ) (d : Driver σ) : PollRet σ :=
  E.poll d.hse d.out_buf out_size

/-- The log entry of the poll call of line 68. -/
def poll_call {σ : Type} (E : HeatshrinkEncoder σ) (d : Driver σ) : Call :=
  Call.poll out_size (poll_ret E d).res (poll_ret E d).out_buf (poll_ret E d).poll_size

/-- The finish call of line 77. -/
def finish_ret {σ : Type} (E : HeatshrinkEncoder σ) (d : Driver σ) : FinishRet σ :=
  E.finish d.hse

/-- The log entry of the finish call of line 77. -/
def finish_call {σ : Type} (E : HeatshrinkEncoder σ) (d : Driver σ) : Call :=
  Call.finish (finish_ret E d).res

/-- One basic block of `_encode_to_out` on the input `in_buf` (whose length
is `in_size`). -/
def step {σ : Type} (E : HeatshrinkEncoder σ) (in_buf : List UInt8) (d : Driver σ) :
    Driver σ :=
  match d.pc with
  | .at_sink =>
    -- lines 54-63
    if d.total_sunk_size < in_buf.length then
      if (sink_ret E in_buf d).res < 0 then
        { d with pc := .returned .PYHS_FAILED_SINK, hse := (sink_ret E in_buf d).hse,
                 calls := d.calls ++ [sink_call E in_buf d] }
      else
        { d with pc := .at_poll, hse := (sink_ret E in_buf d).hse,
                 calls := d.calls ++ [sink_call E in_buf d],
                 total_sunk_size :=
                   (d.total_sunk_size + (sink_ret E in_buf d).sunk_size) % SIZE_T_MOD }
    else
      { d with pc := .at_poll }
  | .at_poll =>
    -- lines 65-73
    if (poll_ret E d).res < 0 then
      { d with pc := .returned .PYHS_FAILED_POLL, hse := (poll_ret E d).hse,
               out_buf := (poll_ret E d).out_buf, calls := d.calls ++ [poll_call E d] }
    else
      { d with pc := if (poll_ret E d).res = E.HSER_POLL_MORE then .at_poll else .at_finish,
               hse := (poll_ret E d).hse, out_buf := (poll_ret E d).out_buf,
               calls := d.calls ++ [poll_call E d],
               out_arr :=
                 uint8_array_insert d.out_arr (poll_ret E d).out_buf (poll_ret E d).poll_size }
  | .at_finish =>
    -- lines 75-89
    if d.total_sunk_size ≥ in_buf.length then
      if (finish_ret E d).res = E.HSER_FINISH_DONE then
        { d with pc := .returned .PYHS_OK, hse := (finish_ret E d).hse,
                 calls := d.calls ++ [finish_call E d] }
      else if (finish_ret E d).res = E.HSER_FINISH_MORE then
        { d with pc := .at_sink, hse := (finish_ret E d).hse,
                 calls := d.calls ++ [finish_call E d] }
      else
        { d with pc := .returned .PYHS_FAILED_FINISH, hse := (finish_ret E d).hse,
                 calls := d.calls ++ [finish_call E d] }
    else
      { d with pc := .at_sink }
  | .returned _ => d

/-- The driver after `n` basic blocks. -/
def run {σ : Type} (E : HeatshrinkEncoder σ) (in_buf : List UInt8) :
    Nat → Driver σ → Driver σ
  | 0, d => d
  | n + 1, d => step E in_buf (run E in_buf n d)

/-- The function `_encode_to_out(hse, in_buf, in_size, out_arr)` given `fuel`
basic blocks: the driver state it has reached. It has returned when that
state is at `Pc.returned`. -/
def _encode_to_out {σ : Type} (E : HeatshrinkEncoder σ) (hse : σ) (in_buf : List UInt8)
    (out_arr : UInt8Array) (out_buf : List UInt8) (fuel : Nat) : Driver σ :=
  run E in_buf fuel (Driver.init hse out_buf out_arr)

/-- The result of `_encode_to_out`, once it has returned. -/
def Driver.result {σ : Type} (d : Driver σ) : Option PyHS_encode_res :=
  match d.pc with
  | .returned r => some r
  | _ => none

/-! ## The module functions (lines 95-147) -/

/-- The Python exception classes the module raises. -/
inductive PyExc where
  | MemoryError
  | RuntimeError
  | NotImplementedError
  deriving DecidableEq

/-- The Python objects that occur as arguments and results of the module:
a byte string, and an int.  The value of an int built from a size that was
read out of a released array is not defined (`none`). -/
inductive PyObject where
  | str (data : List UInt8)
  | int (value : Option Nat)
  deriving DecidableEq

/-- What a module function hands back to the interpreter: an object, or NULL
with the exception set by `PyErr_SetString(exc, msg)`, or NULL with the
exception that PyArg_ParseTuple set. -/
inductive PyResult where
  | value (v : PyObject)
  | error (exc : PyExc) (msg : String)
  | parse_error
  deriving DecidableEq

/-- A call of a module function: its result (`none` while `_encode_to_out`
has not returned within the given fuel) and the library calls it made. -/
structure PyRun where
  result : Option PyResult
  calls : List Call
  deriving DecidableEq

/-- The call `PyArg_ParseTuple(args, "t#", &in_buf, &in_size)` (line 100): it
succeeds on exactly one argument that is a read-only character buffer whose
length fits the int `in_size`. -/
def PyArg_ParseTuple (args : List PyObject) : Option (List UInt8) :=
  match args with
  | [PyObject.str data] => if data.length ≤ INT_MAX then some data else none
  | _ => none

/-- The call `PyInt_FromSize_t(n)` (line 134). -/
def PyInt_FromSize_t (n : Option Nat) : PyObject := PyObject.int n

/-- The switch on `eres` that ends `PyHS_encode` (lines 122-135), given the
released output array. -/
def encode_outcome (eres : PyHS_encode_res) (out_arr : UInt8Array) : PyResult :=
  match eres with
  | .PYHS_FAILED_SINK => .error .RuntimeError "encoder sink failed"
  | .PYHS_FAILED_POLL => .error .RuntimeError "encoder poll failed"
  | .PYHS_FAILED_FINISH => .error .RuntimeError "encoder finish failed"
  | .PYHS_OK => .value (PyInt_FromSize_t (uint8_array_count out_arr))

/-- The function `PyHS_encode(self, args)` (lines 95-136), with the content
`out_buf` of the uninitialised local buffer of `_encode_to_out` and the fuel
given to its loop. -/
def PyHS_encode {σ : Type} (E : HeatshrinkEncoder σ) (out_buf : List UInt8) (fuel : Nat)
    (args : List PyObject) : PyRun :=
  match PyArg_ParseTuple args with
  | none => { result := some .parse_error, calls := [] }
  | some in_buf =>
    let alloc_call :=
      Call.alloc DEFAULT_HEATSHRINK_WINDOW_SZ2 DEFAULT_HEATSHRINK_LOOKAHEAD_SZ2
    match E.alloc DEFAULT_HEATSHRINK_WINDOW_SZ2 DEFAULT_HEATSHRINK_LOOKAHEAD_SZ2 with
    | none =>
      { result := some (.error .MemoryError "failed to allocate encoder"),
        calls := [alloc_call] }
    | some hse =>
      let out_arr := uint8_array_create 1024
      let d := _encode_to_out E hse in_buf out_arr out_buf fuel
      match d.result with
      | none => { result := none, calls := alloc_call :: d.calls }
      | some eres =>
        -- line 119: heatshrink_encoder_free(hse)
        let log := alloc_call :: d.calls ++ [Call.free]
        -- line 120: uint8_array_free(out_arr)
        let out_arr := uint8_array_free d.out_arr
        -- lines 122-135
        { result := some (encode_outcome eres out_arr), calls := log }

/-- The function `PyHS_decode(self, args)` (lines 142-147). -/
def PyHS_decode (_self : Option PyObject) (_args : List PyObject) : PyRun :=
  { result := some (.error .NotImplementedError "not implemented"), calls := [] }

/-- The composition `decode(encode(s))` of the round-trip property, over the
module: `decode` is applied to the object `encode` returned; when `encode`
returned no object there is nothing to decode and its outcome is kept. -/
def decode_of_encode {σ : Type} (E : HeatshrinkEncoder σ) (out_buf : List UInt8)
    (fuel : Nat) (s : List UInt8) : Option PyResult :=
  match (PyHS_encode E out_buf fuel [PyObject.str s]).result with
  | some (.value v) => (PyHS_decode none [v]).result
  | r => r

/-- Modelled from the spec: the parameter ranges of construction (W in 4..15,
L in 3..W-1); outside them heatshrink_encoder_alloc, which is external to
this source file, is in the BAD_PARAMS case. -/
def valid_params (window_sz2 lookahead_sz2 : Nat) : Prop :=
  4 ≤ window_sz2 ∧ window_sz2 ≤ 15 ∧ 3 ≤ lookahead_sz2 ∧ lookahead_sz2 ≤ window_sz2 - 1

instance (w l : Nat) : Decidable (valid_params w l) := by
  unfold valid_params; infer_instance

/-! ## A small encoder to run the driver on -/

/-- State of the sample encoder: bytes sunk and not yet polled, and whether
finish has been called. -/
structure ToyState where
  pending : List UInt8
  finishing : Bool
  deriving DecidableEq

/-- A sample encoder with the status values of heatshrink_encoder.h
(POLL_MORE = 1, FINISH_DONE = 0, FINISH_MORE = 1): sink accepts at most two
bytes, poll hands out one pending byte per call, the first finish queues a
zero byte and asks for more. -/
def toyEncoder : HeatshrinkEncoder ToyState where
  HSER_POLL_MORE := 1
  HSER_FINISH_DONE := 0
  HSER_FINISH_MORE := 1
  alloc := fun _ _ => some { pending := [], finishing := false }
  sink := fun s bytes =>
    { res := 0, sunk_size := min 2 bytes.length,
      hse := { s with pending := s.pending ++ bytes.take 2 } }
  poll := fun s buf _ =>
    match s.pending with
    | [] => { res := 0, out_buf := buf, poll_size := 0, hse := s }
    | b :: rest =>
      { res := if rest = [] then 0 else 1, out_buf := b :: buf.drop 1, poll_size := 1,
        hse := { s with pending := rest } }
  finish := fun s =>
    if s.finishing then { res := 0, hse := s }
    else { res := 1, hse := { pending := s.pending ++ [0], finishing := true } }

/-- The initial state of the sample encoder. -/
def toyInit : ToyState := { pending := [], finishing := false }

/-! ## Observations on the call log -/

/-- The bytes the polls of a log handed over: the first `poll_size` bytes of
the buffer of every poll whose status was not negative, in call order. -/
def polled : List Call → List UInt8
  | [] => []
  | Call.poll _ res buf k :: rest => (if 0 ≤ res then buf.take k else []) ++ polled rest
  | _ :: rest => polled rest

/-- The bytes one call consumed from the input `in_buf`: for a sink whose
status was not negative, the first `sunk_size` bytes of the slice it was
offered; nothing for any other call. -/
def sunk_chunk (in_buf : List UInt8) : Call → List UInt8
  | Call.sink offset size res k =>
    if 0 ≤ res then (((in_buf.drop offset).take size).take k) else []
  | _ => []

/-- The bytes the sinks of a log consumed, concatenated in call order. -/
def sunk (in_buf : List UInt8) : List Call → List UInt8
  | [] => []
  | c :: rest => sunk_chunk in_buf c ++ sunk in_buf rest

/-- A sink call. -/
def Call.isSink : Call → Bool
  | Call.sink _ _ _ _ => true
  | _ => false

/-- A poll call. -/
def Call.isPoll : Call → Bool
  | Call.poll _ _ _ _ => true
  | _ => false

/-- A finish call. -/
def Call.isFinish : Call → Bool
  | Call.finish _ => true
  | _ => false

/-- A call whose status makes `_encode_to_out` give up: a negative sink or
poll status, or a finish status that is neither DONE nor MORE. -/
def Call.isBad {σ : Type} (E : HeatshrinkEncoder σ) : Call → Bool
  | Call.sink _ _ res _ => decide (res < 0)
  | Call.poll _ res _ _ => decide (res < 0)
  | Call.finish res => decide (res ≠ E.HSER_FINISH_DONE ∧ res ≠ E.HSER_FINISH_MORE)
  | _ => false

/-- A poll that drained the encoder: its status is neither negative nor
HSER_POLL_MORE. -/
def Call.isDrainedPoll {σ : Type} (E : HeatshrinkEncoder σ) : Call → Bool
  | Call.poll _ res _ _ => decide (0 ≤ res ∧ res ≠ E.HSER_POLL_MORE)
  | _ => false

/-- A poll that returned HSER_POLL_MORE. -/
def Call.isPollMore {σ : Type} (E : HeatshrinkEncoder σ) : Call → Bool
  | Call.poll _ res _ _ => decide (res = E.HSER_POLL_MORE)
  | _ => false

/-- A poll given the whole 4096-byte buffer. -/
def Call.isFullPoll : Call → Bool
  | Call.poll size _ _ _ => decide (size = 4096)
  | _ => false

/-- A finish that returned HSER_FINISH_MORE. -/
def Call.isFinishMore {σ : Type} (E : HeatshrinkEncoder σ) : Call → Bool
  | Call.finish res => decide (res = E.HSER_FINISH_MORE)
  | _ => false

/-- A sink that, when it succeeded, reported no more bytes consumed than it
was offered. -/
def Call.sinkWithinOffer : Call → Bool
  | Call.sink _ size res k => decide (0 ≤ res → k ≤ size)
  | _ => true

/-- A sink that returned a non-negative status and consumed at least one and
at most the offered number of bytes. -/
def Call.sinkProgress : Call → Bool
  | Call.sink _ size res k => decide (0 ≤ res ∧ 1 ≤ k ∧ k ≤ size)
  | _ => true

/-- A call whose status is not negative. -/
def Call.statusNonneg : Call → Bool
  | Call.sink _ _ res _ => decide (0 ≤ res)
  | Call.poll _ res _ _ => decide (0 ≤ res)
  | Call.finish res => decide (0 ≤ res)
  | _ => true

/-- A finish returned HSER_FINISH_DONE or HSER_FINISH_MORE. -/
def Call.finishDoneOrMore {σ : Type} (E : HeatshrinkEncoder σ) : Call → Bool
  | Call.finish res => decide (res = E.HSER_FINISH_DONE ∨ res = E.HSER_FINISH_MORE)
  | _ => true

/-- The log ends with a poll that returned HSER_POLL_MORE. -/
def endsInPollMore {σ : Type} (E : HeatshrinkEncoder σ) (log : List Call) : Bool :=
  match log.getLast? with
  | some c => c.isPollMore E
  | none => false

/-- How many finish calls of the log returned HSER_FINISH_MORE. -/
def finishMoreCount {σ : Type} (E : HeatshrinkEncoder σ) (log : List Call) : Nat :=
  (log.filter (Call.isFinishMore E)).length

/-- Which call may directly follow which in a log of `_encode_to_out`. -/
def follows {σ : Type} (E : HeatshrinkEncoder σ) : Call → Call → Prop
  | Call.sink _ _ res _, Call.poll size _ _ _ => 0 ≤ res ∧ size = 4096
  | Call.poll _ res _ _, Call.poll size _ _ _ =>
    0 ≤ res ∧ res = E.HSER_POLL_MORE ∧ size = 4096
  | Call.poll _ res _ _, Call.sink _ _ _ _ => 0 ≤ res ∧ res ≠ E.HSER_POLL_MORE
  | Call.poll _ res _ _, Call.finish _ => 0 ≤ res ∧ res ≠ E.HSER_POLL_MORE
  | Call.finish res, Call.poll size _ _ _ =>
    res = E.HSER_FINISH_MORE ∧ res ≠ E.HSER_FINISH_DONE ∧ size = 4096
  | _, _ => False

/-- How the control point of the driver is tied to the last call it made on
an input of `n` bytes. -/
def Linked {σ : Type} (E : HeatshrinkEncoder σ) (n : Nat) (d : Driver σ) : Prop :=
  match d.pc, d.calls.getLast? with
  | .at_sink, none => True
  | .at_sink, some (Call.poll _ res _ _) =>
    0 ≤ res ∧ res ≠ E.HSER_POLL_MORE ∧ d.total_sunk_size < n
  | .at_sink, some (Call.finish res) =>
    res = E.HSER_FINISH_MORE ∧ res ≠ E.HSER_FINISH_DONE ∧ n ≤ d.total_sunk_size
  | .at_poll, none => n ≤ d.total_sunk_size
  | .at_poll, some (Call.sink _ _ res _) => 0 ≤ res
  | .at_poll, some (Call.poll _ res _ _) => 0 ≤ res ∧ res = E.HSER_POLL_MORE
  | .at_poll, some (Call.finish res) =>
    res = E.HSER_FINISH_MORE ∧ res ≠ E.HSER_FINISH_DONE ∧ n ≤ d.total_sunk_size
  | .at_finish, some (Call.poll _ res _ _) => 0 ≤ res ∧ res ≠ E.HSER_POLL_MORE
  | .returned r, some (Call.sink _ _ res _) => res < 0 ∧ r = .PYHS_FAILED_SINK
  | .returned r, some (Call.poll _ res _ _) => res < 0 ∧ r = .PYHS_FAILED_POLL
  | .returned r, some (Call.finish res) =>
    (res = E.HSER_FINISH_DONE ∧ r = .PYHS_OK) ∨
    (res ≠ E.HSER_FINISH_DONE ∧ res ≠ E.HSER_FINISH_MORE ∧ r = .PYHS_FAILED_FINISH)
  | _, _ => False

/-! ## Paths through the loop body, and invariants of the driver -/

section
variable {σ : Type} (E : HeatshrinkEncoder σ) (in_buf : List UInt8)

/-- The ways a basic block can go, one constructor per path through the
loop body. -/
inductive StepCase (d : Driver σ) : Driver σ → Prop where
  | sink_fail (hpc : d.pc = .at_sink) (hlt : d.total_sunk_size < in_buf.length)
      (hres : (sink_ret E in_buf d).res < 0) :
      StepCase d { d with pc := .returned .PYHS_FAILED_SINK, hse := (sink_ret E in_buf d).hse,
                          calls := d.calls ++ [sink_call E in_buf d] }
  | sink_ok (hpc : d.pc = .at_sink) (hlt : d.total_sunk_size < in_buf.length)
      (hres : 0 ≤ (sink_ret E in_buf d).res) :
      StepCase d { d with pc := .at_poll, hse := (sink_ret E in_buf d).hse,
                          calls := d.calls ++ [sink_call E in_buf d],
                          total_sunk_size :=
                            (d.total_sunk_size + (sink_ret E in_buf d).sunk_size) % SIZE_T_MOD }
  | sink_skip (hpc : d.pc = .at_sink) (hge : in_buf.length ≤ d.total_sunk_size) :
      StepCase d { d with pc := .at_poll }
  | poll_fail (hpc : d.pc = .at_poll) (hres : (poll_ret E d).res < 0) :
      StepCase d { d with pc := .returned .PYHS_FAILED_POLL, hse := (poll_ret E d).hse,
                          out_buf := (poll_ret E d).out_buf,
                          calls := d.calls ++ [poll_call E d] }
  | poll_more (hpc : d.pc = .at_poll) (hres : 0 ≤ (poll_ret E d).res)
      (hmore : (poll_ret E d).res = E.HSER_POLL_MORE) :
      StepCase d { d with pc := .at_poll, hse := (poll_ret E d).hse,
                          out_buf := (poll_ret E d).out_buf,
                          calls := d.calls ++ [poll_call E d],
                          out_arr := uint8_array_insert d.out_arr (poll_ret E d).out_buf
                            (poll_ret E d).poll_size }
  | poll_drained (hpc : d.pc = .at_poll) (hres : 0 ≤ (poll_ret E d).res)
      (hmore : (poll_ret E d).res ≠ E.HSER_POLL_MORE) :
      StepCase d { d with pc := .at_finish, hse := (poll_ret E d).hse,
                          out_buf := (poll_ret E d).out_buf,
                          calls := d.calls ++ [poll_call E d],
                          out_arr := uint8_array_insert d.out_arr (poll_ret E d).out_buf
                            (poll_ret E d).poll_size }
  | finish_done (hpc : d.pc = .at_finish) (hge : in_buf.length ≤ d.total_sunk_size)
      (hdone : (finish_ret E d).res = E.HSER_FINISH_DONE) :
      StepCase d { d with pc := .returned .PYHS_OK, hse := (finish_ret E d).hse,
                          calls := d.calls ++ [finish_call E d] }
  | finish_more (hpc : d.pc = .at_finish) (hge : in_buf.length ≤ d.total_sunk_size)
      (hdone : (finish_ret E d).res ≠ E.HSER_FINISH_DONE)
      (hmore : (finish_ret E d).res = E.HSER_FINISH_MORE) :
      StepCase d { d with pc := .at_sink, hse := (finish_ret E d).hse,
                          calls := d.calls ++ [finish_call E d] }
  | finish_fail (hpc : d.pc = .at_finish) (hge : in_buf.length ≤ d.total_sunk_size)
      (hdone : (finish_ret E d).res ≠ E.HSER_FINISH_DONE)
      (hmore : (finish_ret E d).res ≠ E.HSER_FINISH_MORE) :
      StepCase d { d with pc := .returned .PYHS_FAILED_FINISH, hse := (finish_ret E d).hse,
                          calls := d.calls ++ [finish_call E d] }
  | finish_skip (hpc : d.pc = .at_finish) (hlt : d.total_sunk_size < in_buf.length) :
      StepCase d { d with pc := .at_sink }
  | stay (r : PyHS_encode_res) (hpc : d.pc = .returned r) : StepCase d d

/-- What holds of the driver after any number of basic blocks: consecutive
calls obey `follows`, the control point matches the last call, a finish is
only in the log once all input is sunk, no sink comes after a finish, and the
driver makes only sink, poll and finish calls. -/
structure Inv (d : Driver σ) : Prop where
  chain : List.Chain' (follows E) d.calls
  linked : Linked E in_buf.length d
  finished : ∀ c ∈ d.calls, c.isFinish = true → in_buf.length ≤ d.total_sunk_size
  no_resink : ∀ pre c post, d.calls = pre ++ c :: post → c.isFinish = true →
    ∀ x ∈ post, x.isSink = false
  kinds : ∀ c ∈ d.calls, c.isSink = true ∨ c.isPoll = true ∨ c.isFinish = true
  head_kind : ∀ c, d.calls.head? = some c → c.isFinish = false

/-- What holds of the input offsets after any number of basic blocks, as long
as every successful sink reported at most what it was offered. -/
structure Bookkeeping (d : Driver σ) : Prop where
  total_le : d.total_sunk_size ≤ in_buf.length
  sunk_eq : sunk in_buf d.calls = in_buf.take d.total_sunk_size
  at_sink : ∀ pre o sz res k post, d.calls = pre ++ Call.sink o sz res k :: post →
    sunk in_buf pre = in_buf.take o ∧ o < in_buf.length ∧ sz = in_buf.length - o
  at_finish : ∀ pre res post, d.calls = pre ++ Call.finish res :: post →
    sunk in_buf pre = in_buf

/-- The quantity that decreases with every turn of the outer loop: the bytes
still to sink plus the HSER_FINISH_MORE results still allowed. -/
def loop_measure (K : Nat) (d : Driver σ) : Nat :=
  (in_buf.length - d.total_sunk_size) + (K - finishMoreCount E d.calls)

end

/-! ## Basic facts about `step` and `run` -/

section
variable {σ : Type} (E : HeatshrinkEncoder σ) (in_buf : List UInt8)

theorem step_case (d : Driver σ) : StepCase E in_buf d (step E in_buf d) := by
  unfold step
  split
  next hpc =>
    by_cases hlt : d.total_sunk_size < in_buf.length
    · by_cases hres : (sink_ret E in_buf d).res < 0
      · simp only [hlt, hres, if_true]; exact .sink_fail hpc hlt hres
      · simp only [hlt, hres, if_true, if_false]; exact .sink_ok hpc hlt (not_lt.mp hres)
    · simp only [hlt, if_false]; exact .sink_skip hpc (not_lt.mp hlt)
  next hpc =>
    by_cases hres : (poll_ret E d).res < 0
    · simp only [hres, if_true]; exact .poll_fail hpc hres
    · by_cases hmore : (poll_ret E d).res = E.HSER_POLL_MORE
      · simp only [hres, if_false, if_pos hmore]
        exact .poll_more hpc (not_lt.mp hres) hmore
      · simp only [hres, if_false, if_neg hmore]
        exact .poll_drained hpc (not_lt.mp hres) hmore
  next hpc =>
    by_cases hge : d.total_sunk_size ≥ in_buf.length
    · by_cases hdone : (finish_ret E d).res = E.HSER_FINISH_DONE
      · simp only [hge, if_true, if_pos hdone]; exact .finish_done hpc hge hdone
      · by_cases hmore : (finish_ret E d).res = E.HSER_FINISH_MORE
        · simp only [hge, if_true, if_neg hdone, if_pos hmore]
          exact .finish_more hpc hge hdone hmore
        · simp only [hge, if_true, if_neg hdone, if_neg hmore]
          exact .finish_fail hpc hge hdone hmore
    · simp only [hge, if_false]; exact .finish_skip hpc (not_le.mp hge)
  next r hpc => exact .stay r hpc

theorem run_succ (n : Nat) (d : Driver σ) :
    run E in_buf (n + 1) d = step E in_buf (run E in_buf n d) := rfl

theorem run_add (a b : Nat) (d : Driver σ) :
    run E in_buf (a + b) d = run E in_buf b (run E in_buf a d) := by
  induction b with
  | zero => rfl
  | succ b ih => rw [← Nat.add_assoc, run_succ, run_succ, ih]

theorem step_returned (d : Driver σ) (r : PyHS_encode_res) (h : d.pc = .returned r) :
    step E in_buf d = d := by
  unfold step; rw [h]

theorem run_returned (k : Nat) (d : Driver σ) (r : PyHS_encode_res)
    (h : d.pc = .returned r) : run E in_buf k d = d := by
  induction k with
  | zero => rfl
  | succ k ih => rw [run_succ, ih, step_returned E in_buf d r h]

/-- Each basic block leaves the log alone or appends one call to it. -/
theorem step_calls (d : Driver σ) :
    (step E in_buf d).calls = d.calls ∨ ∃ c, (step E in_buf d).calls = d.calls ++ [c] := by
  have h := step_case E in_buf d
  generalize step E in_buf d = d' at h ⊢
  cases h <;> simp

theorem run_calls (k : Nat) (d : Driver σ) :
    ∃ l, (run E in_buf k d).calls = d.calls ++ l := by
  induction k with
  | zero => exact ⟨[], by simp [run]⟩
  | succ k ih =>
    obtain ⟨l, hl⟩ := ih
    rw [run_succ]
    rcases step_calls E in_buf (run E in_buf k d) with h | ⟨c, h⟩
    · exact ⟨l, by rw [h, hl]⟩
    · exact ⟨l ++ [c], by rw [h, hl, List.append_assoc]⟩

theorem encode_to_out_succ (hse : σ) (out_arr : UInt8Array) (out_buf : List UInt8)
    (n : Nat) :
    _encode_to_out E hse in_buf out_arr out_buf (n + 1) =
      step E in_buf (_encode_to_out E hse in_buf out_arr out_buf n) := rfl

/-- Splitting a list that ends in `c` around one of its elements: that
element is `c` itself, or `c` ends what comes after it. -/
theorem split_concat {α : Type} {l pre post : List α} {c x : α}
    (h : l ++ [c] = pre ++ x :: post) :
    (post = [] ∧ pre = l ∧ x = c) ∨ ∃ post', post = post' ++ [c] ∧ l = pre ++ x :: post' := by
  rcases List.eq_nil_or_concat post with hp | ⟨post', y, hp⟩
  · subst hp
    left
    have h' := List.append_inj' h rfl
    simp at h'
    exact ⟨rfl, h'.1.symm, h'.2.symm⟩
  · subst hp
    right
    have h2 : l ++ [c] = (pre ++ x :: post') ++ [y] := by simpa using h
    have h' := List.append_inj' h2 rfl
    simp at h'
    refine ⟨post', ?_, ?_⟩
    · rw [h'.2]; simp
    · simpa using h'.1

/-! ## Output accumulation -/

theorem polled_append (l₁ l₂ : List Call) : polled (l₁ ++ l₂) = polled l₁ ++ polled l₂ := by
  induction l₁ with
  | nil => rfl
  | cons c l ih => cases c <;> simp [polled, ih]

theorem step_out_arr (a : List UInt8) (d : Driver σ)
    (h : d.out_arr.items = a ++ polled d.calls) :
    (step E in_buf d).out_arr.items = a ++ polled (step E in_buf d).calls := by
  have hc := step_case E in_buf d
  generalize step E in_buf d = d' at hc ⊢
  cases hc with
  | poll_fail hpc hres => simp [polled_append, polled, poll_call, h, not_le.mpr hres]
  | poll_more hpc hres hmore =>
    simp [polled_append, polled, poll_call, uint8_array_insert, h, hres]
  | poll_drained hpc hres hmore =>
    simp [polled_append, polled, poll_call, uint8_array_insert, h, hres]
  | _ => simp [polled_append, polled, sink_call, finish_call, h]

theorem run_out_arr (a : List UInt8) (k : Nat) (d : Driver σ)
    (h : d.out_arr.items = a ++ polled d.calls) :
    (run E in_buf k d).out_arr.items = a ++ polled (run E in_buf k d).calls := by
  induction k with
  | zero => exact h
  | succ k ih => rw [run_succ]; exact step_out_arr E in_buf a _ ih

/-! ## The protocol invariant of the driver -/

theorem inv_init (hse : σ) (out_buf : List UInt8) (out_arr : UInt8Array) :
    Inv E in_buf (Driver.init hse out_buf out_arr) where
  chain := by simp [Driver.init]
  linked := by simp [Driver.init, Linked]
  finished := by simp [Driver.init]
  no_resink := by simp [Driver.init]
  kinds := by simp [Driver.init]
  head_kind := by simp [Driver.init]

/-- Appending a call that may follow the last one keeps the chain. -/
theorem chain_concat (l : List Call) (c : Call) (h : List.Chain' (follows E) l)
    (hl : ∀ x, l.getLast? = some x → follows E x c) : List.Chain' (follows E) (l ++ [c]) := by
  rw [List.chain'_append]
  refine ⟨h, by simp, ?_⟩
  intro x hx y hy
  simp at hy
  subst hy
  exact hl x (by simpa using hx)

/-- No sink comes after a finish in `l ++ [c]` when that holds of `l` and `c`
is not a sink, or `l` has no finish. -/
theorem no_resink_concat (l : List Call) (c : Call)
    (h : ∀ pre x post, l = pre ++ x :: post → x.isFinish = true →
      ∀ y ∈ post, y.isSink = false)
    (hc : c.isSink = false ∨ ∀ x ∈ l, x.isFinish = false) :
    ∀ pre x post, l ++ [c] = pre ++ x :: post → x.isFinish = true →
      ∀ y ∈ post, y.isSink = false := by
  intro pre x post hsplit hx y hy
  rcases split_concat hsplit with ⟨hp, _, _⟩ | ⟨post', hp, hl⟩
  · subst hp; simp at hy
  · subst hp
    rcases List.mem_append.mp hy with hy | hy
    · exact h pre x post' hl hx y hy
    · simp at hy
      subst hy
      rcases hc with hc | hc
      · exact hc
      · have := hc x (by rw [hl]; simp)
        rw [hx] at this
        exact absurd this (by simp)

/-- What `Linked` says of the last call when the driver is about to sink. -/
theorem linked_follows_sink (d : Driver σ) (hl : Linked E in_buf.length d)
    (hpc : d.pc = .at_sink) (hlt : d.total_sunk_size < in_buf.length) (o s k : Nat) (r : Int) :
    ∀ x, d.calls.getLast? = some x → follows E x (Call.sink o s r k) := by
  intro x hx
  cases x <;> simp [Linked, hpc, hx, follows] at hl ⊢
  · exact ⟨hl.1, hl.2.1⟩
  · omega

/-- What `Linked` says of the last call when the driver is about to poll. -/
theorem linked_follows_poll (d : Driver σ) (hl : Linked E in_buf.length d)
    (hpc : d.pc = .at_poll) (r : Int) (buf : List UInt8) (k : Nat) :
    ∀ x, d.calls.getLast? = some x → follows E x (Call.poll out_size r buf k) := by
  intro x hx
  cases x <;> simp [Linked, hpc, hx, follows, out_size] at hl ⊢
  · exact hl
  · exact hl
  · exact ⟨hl.1, hl.2.1⟩

/-- What `Linked` says of the last call when the driver is about to finish. -/
theorem linked_follows_finish (d : Driver σ) (hl : Linked E in_buf.length d)
    (hpc : d.pc = .at_finish) (r : Int) :
    ∀ x, d.calls.getLast? = some x → follows E x (Call.finish r) := by
  intro x hx
  cases x <;> simp [Linked, hpc, hx, follows] at hl ⊢
  exact hl

/-- A driver about to sink unconsumed input has made no finish call. -/
theorem no_finish_of_lt (d : Driver σ)
    (hfin : ∀ c ∈ d.calls, c.isFinish = true → in_buf.length ≤ d.total_sunk_size)
    (hlt : d.total_sunk_size < in_buf.length) : ∀ x ∈ d.calls, x.isFinish = false := by
  intro x hx
  by_contra hne
  have := hfin x hx (by simpa using hne)
  omega

/-- The first call of `l ++ [c]` is not a finish when that holds of `l` and
`c` is not a finish or `l` is not empty. -/
theorem head_concat (l : List Call) (c : Call)
    (h : ∀ x, l.head? = some x → x.isFinish = false)
    (hc : c.isFinish = false ∨ l ≠ []) :
    ∀ x, (l ++ [c]).head? = some x → x.isFinish = false := by
  intro x hx
  cases l with
  | nil =>
    simp at hx
    subst hx
    rcases hc with hc | hc
    · exact hc
    · exact absurd rfl hc
  | cons a l => exact h x (by simpa using hx)

/-- A driver about to finish has made a call. -/
theorem linked_finish_ne_nil (d : Driver σ) (hl : Linked E in_buf.length d)
    (hpc : d.pc = .at_finish) : d.calls ≠ [] := by
  intro hnil
  simp [Linked, hpc, hnil] at hl

theorem inv_step (d : Driver σ) (h : Inv E in_buf d) : Inv E in_buf (step E in_buf d) := by
  have hc := step_case E in_buf d
  generalize step E in_buf d = d' at hc ⊢
  obtain ⟨hchain, hlinked, hfin, hres, hkinds, hhead⟩ := h
  cases hc with
  | sink_fail hpc hlt hr =>
    have hnf := no_finish_of_lt in_buf d hfin hlt
    refine ⟨?_, ?_, ?_, ?_, ?_, ?_⟩
    · exact chain_concat E _ _ hchain (linked_follows_sink E in_buf d hlinked hpc hlt _ _ _ _)
    · simp [Linked, sink_call, hr]
    · intro c hc hcf
      simp [sink_call] at hc
      rcases hc with hc | hc
      · have := hnf c hc; simp [hcf] at this
      · subst hc; simp [Call.isFinish] at hcf
    · exact no_resink_concat _ _ hres (Or.inr hnf)
    · intro c hc
      simp at hc
      rcases hc with hc | hc
      · exact hkinds c hc
      · subst hc; simp [sink_call, Call.isSink]
    · exact head_concat _ _ hhead (Or.inl (by simp [sink_call, Call.isFinish]))
  | sink_ok hpc hlt hr =>
    have hnf := no_finish_of_lt in_buf d hfin hlt
    refine ⟨?_, ?_, ?_, ?_, ?_, ?_⟩
    · exact chain_concat E _ _ hchain (linked_follows_sink E in_buf d hlinked hpc hlt _ _ _ _)
    · simp [Linked, sink_call, hr]
    · intro c hc hcf
      simp [sink_call] at hc
      rcases hc with hc | hc
      · have := hnf c hc; simp [hcf] at this
      · subst hc; simp [Call.isFinish] at hcf
    · exact no_resink_concat _ _ hres (Or.inr hnf)
    · intro c hc
      simp at hc
      rcases hc with hc | hc
      · exact hkinds c hc
      · subst hc; simp [sink_call, Call.isSink]
    · exact head_concat _ _ hhead (Or.inl (by simp [sink_call, Call.isFinish]))
  | sink_skip hpc hge =>
    refine ⟨hchain, ?_, hfin, hres, hkinds, hhead⟩
    cases hx : d.calls.getLast? with
    | none => simp [Linked, hx, hge]
    | some x =>
      cases x <;> simp [Linked, hpc, hx] at hlinked ⊢
      · omega
      · exact hlinked
  | poll_fail hpc hr =>
    refine ⟨?_, ?_, ?_, ?_, ?_, ?_⟩
    · exact chain_concat E _ _ hchain (linked_follows_poll E in_buf d hlinked hpc _ _ _)
    · simp [Linked, poll_call, hr]
    · intro c hc hcf
      simp [poll_call] at hc
      rcases hc with hc | hc
      · exact hfin c hc hcf
      · subst hc; simp [Call.isFinish] at hcf
    · exact no_resink_concat _ _ hres (Or.inl (by simp [poll_call, Call.isSink]))
    · intro c hc
      simp at hc
      rcases hc with hc | hc
      · exact hkinds c hc
      · subst hc; simp [poll_call, Call.isPoll]
    · exact head_concat _ _ hhead (Or.inl (by simp [poll_call, Call.isFinish]))
  | poll_more hpc hr hmore =>
    refine ⟨?_, ?_, ?_, ?_, ?_, ?_⟩
    · exact chain_concat E _ _ hchain (linked_follows_poll E in_buf d hlinked hpc _ _ _)
    · simp [Linked, poll_call, hmore]
      rw [← hmore]; exact hr
    · intro c hc hcf
      simp [poll_call] at hc
      rcases hc with hc | hc
      · exact hfin c hc hcf
      · subst hc; simp [Call.isFinish] at hcf
    · exact no_resink_concat _ _ hres (Or.inl (by simp [poll_call, Call.isSink]))
    · intro c hc
      simp at hc
      rcases hc with hc | hc
      · exact hkinds c hc
      · subst hc; simp [poll_call, Call.isPoll]
    · exact head_concat _ _ hhead (Or.inl (by simp [poll_call, Call.isFinish]))
  | poll_drained hpc hr hmore =>
    refine ⟨?_, ?_, ?_, ?_, ?_, ?_⟩
    · exact chain_concat E _ _ hchain (linked_follows_poll E in_buf d hlinked hpc _ _ _)
    · simp [Linked, poll_call, hr, hmore]
    · intro c hc hcf
      simp [poll_call] at hc
      rcases hc with hc | hc
      · exact hfin c hc hcf
      · subst hc; simp [Call.isFinish] at hcf
    · exact no_resink_concat _ _ hres (Or.inl (by simp [poll_call, Call.isSink]))
    · intro c hc
      simp at hc
      rcases hc with hc | hc
      · exact hkinds c hc
      · subst hc; simp [poll_call, Call.isPoll]
    · exact head_concat _ _ hhead (Or.inl (by simp [poll_call, Call.isFinish]))
  | finish_done hpc hge hdone =>
    refine ⟨?_, ?_, ?_, ?_, ?_, ?_⟩
    · exact chain_concat E _ _ hchain (linked_follows_finish E in_buf d hlinked hpc _)
    · simp [Linked, finish_call, hdone]
    · intro c _ _; exact hge
    · exact no_resink_concat _ _ hres (Or.inl (by simp [finish_call, Call.isSink]))
    · intro c hc
      simp at hc
      rcases hc with hc | hc
      · exact hkinds c hc
      · subst hc; simp [finish_call, Call.isFinish]
    · exact head_concat _ _ hhead (Or.inr (linked_finish_ne_nil E in_buf d hlinked hpc))
  | finish_more hpc hge hdone hmore =>
    refine ⟨?_, ?_, ?_, ?_, ?_, ?_⟩
    · exact chain_concat E _ _ hchain (linked_follows_finish E in_buf d hlinked hpc _)
    · simp [Linked, finish_call, hdone, hmore, hge]
      rw [← hmore]; exact hdone
    · intro c _ _; exact hge
    · exact no_resink_concat _ _ hres (Or.inl (by simp [finish_call, Call.isSink]))
    · intro c hc
      simp at hc
      rcases hc with hc | hc
      · exact hkinds c hc
      · subst hc; simp [finish_call, Call.isFinish]
    · exact head_concat _ _ hhead (Or.inr (linked_finish_ne_nil E in_buf d hlinked hpc))
  | finish_fail hpc hge hdone hmore =>
    refine ⟨?_, ?_, ?_, ?_, ?_, ?_⟩
    · exact chain_concat E _ _ hchain (linked_follows_finish E in_buf d hlinked hpc _)
    · simp [Linked, finish_call, hdone, hmore]
    · intro c _ _; exact hge
    · exact no_resink_concat _ _ hres (Or.inl (by simp [finish_call, Call.isSink]))
    · intro c hc
      simp at hc
      rcases hc with hc | hc
      · exact hkinds c hc
      · subst hc; simp [finish_call, Call.isFinish]
    · exact head_concat _ _ hhead (Or.inr (linked_finish_ne_nil E in_buf d hlinked hpc))
  | finish_skip hpc hlt =>
    refine ⟨hchain, ?_, hfin, hres, hkinds, hhead⟩
    cases hx : d.calls.getLast? with
    | none => simp [Linked, hpc, hx] at hlinked
    | some x =>
      cases x <;> simp [Linked, hpc, hx] at hlinked ⊢
      exact ⟨hlinked.1, hlinked.2, hlt⟩
  | stay r hpc => exact ⟨hchain, hlinked, hfin, hres, hkinds, hhead⟩

theorem inv_run (k : Nat) (d : Driver σ) (h : Inv E in_buf d) :
    Inv E in_buf (run E in_buf k d) := by
  induction k with
  | zero => exact h
  | succ k ih => rw [run_succ]; exact inv_step E in_buf _ ih

theorem inv_encode_to_out (hse : σ) (out_arr : UInt8Array) (out_buf : List UInt8)
    (n : Nat) : Inv E in_buf (_encode_to_out E hse in_buf out_arr out_buf n) :=
  inv_run E in_buf n _ (inv_init E in_buf hse out_buf out_arr)

/-- In a chain, a call directly followed by another obeys `follows`. -/
theorem chain_adjacent (pre post : List Call) (a b : Call)
    (h : List.Chain' (follows E) (pre ++ a :: b :: post)) : follows E a b := by
  rw [List.chain'_split] at h
  exact (List.chain'_cons.mp h.2).1

/-- In a chain, only the last call can have a bad status. -/
theorem chain_good (pre : List Call) (c : Call)
    (h : List.Chain' (follows E) (pre ++ [c])) : ∀ a ∈ pre, a.isBad E = false := by
  intro a ha
  obtain ⟨l₁, l₂, rfl⟩ := List.append_of_mem ha
  have hf : ∃ b, follows E a b := by
    cases l₂ with
    | nil => exact ⟨c, chain_adjacent E l₁ [] a c (by simpa using h)⟩
    | cons b l₂ => exact ⟨b, chain_adjacent E l₁ (l₂ ++ [c]) a b (by simpa using h)⟩
  obtain ⟨b, hb⟩ := hf
  cases a <;> cases b <;> simp [follows, Call.isBad] at hb ⊢
  · exact hb.1
  · exact hb.1
  · exact hb.1
  · exact hb.1
  · intro _; exact hb.1

/-- Once a finish is in the log, a basic block leaves `total_sunk_size` alone. -/
theorem step_total_of_finish (d : Driver σ) (h : Inv E in_buf d) (c : Call) (hc : c ∈ d.calls)
    (hf : c.isFinish = true) :
    (step E in_buf d).total_sunk_size = d.total_sunk_size := by
  have hge := h.finished c hc hf
  have hs := step_case E in_buf d
  generalize step E in_buf d = d' at hs ⊢
  cases hs with
  | sink_ok hpc hlt hr => omega
  | _ => rfl

theorem run_total_of_finish (k : Nat) (d : Driver σ) (h : Inv E in_buf d) (c : Call)
    (hc : c ∈ d.calls) (hf : c.isFinish = true) :
    (run E in_buf k d).total_sunk_size = d.total_sunk_size := by
  induction k with
  | zero => rfl
  | succ k ih =>
    rw [run_succ, ← ih]
    obtain ⟨l, hl⟩ := run_calls E in_buf k d
    exact step_total_of_finish E in_buf _ (inv_run E in_buf k d h) c
      (by rw [hl]; exact List.mem_append_left _ hc) hf

/-- A driver whose last call is a poll that returned a non-negative
HSER_POLL_MORE polls again in its next basic block. -/
theorem step_after_poll_more (d : Driver σ) (h : Linked E in_buf.length d)
    (sz : Nat) (res : Int) (buf : List UInt8) (k : Nat)
    (hlast : d.calls.getLast? = some (Call.poll sz res buf k))
    (hres : res = E.HSER_POLL_MORE) (hmore : 0 ≤ E.HSER_POLL_MORE) :
    (step E in_buf d).calls = d.calls ++ [poll_call E d] := by
  have hs := step_case E in_buf d
  generalize step E in_buf d = d' at hs ⊢
  cases hs with
  | poll_fail hpc hr => rfl
  | poll_more hpc hr hm => rfl
  | poll_drained hpc hr hm => rfl
  | sink_fail hpc hlt hr => simp [Linked, hpc, hlast, hres] at h
  | sink_ok hpc hlt hr => simp [Linked, hpc, hlast, hres] at h
  | sink_skip hpc hge => simp [Linked, hpc, hlast, hres] at h
  | finish_done hpc hge hdone => simp [Linked, hpc, hlast, hres] at h
  | finish_more hpc hge hdone hm => simp [Linked, hpc, hlast, hres] at h
  | finish_fail hpc hge hdone hm => simp [Linked, hpc, hlast, hres] at h
  | finish_skip hpc hlt => simp [Linked, hpc, hlast, hres] at h
  | stay r hpc =>
    simp [Linked, hpc, hlast, hres] at h
    omega

/-- A driver at the poll makes a poll call on the full buffer in its next
basic block. -/
theorem step_at_poll_calls (d : Driver σ) (hpc : d.pc = .at_poll) :
    (step E in_buf d).calls = d.calls ++ [poll_call E d] := by
  have hs := step_case E in_buf d
  generalize step E in_buf d = d' at hs ⊢
  cases hs with
  | poll_fail _ _ => rfl
  | poll_more _ _ _ => rfl
  | poll_drained _ _ _ => rfl
  | sink_fail h _ _ => rw [hpc] at h; cases h
  | sink_ok h _ _ => rw [hpc] at h; cases h
  | sink_skip h _ => rw [hpc] at h; cases h
  | finish_done h _ _ => rw [hpc] at h; cases h
  | finish_more h _ _ _ => rw [hpc] at h; cases h
  | finish_fail h _ _ _ => rw [hpc] at h; cases h
  | finish_skip h _ => rw [hpc] at h; cases h
  | stay r h => rw [hpc] at h; cases h

/-- A driver at the top of the loop body with nothing left to sink goes to
the poll without a call. -/
theorem step_at_sink_skip (d : Driver σ) (hpc : d.pc = .at_sink)
    (hge : in_buf.length ≤ d.total_sunk_size) :
    step E in_buf d = { d with pc := .at_poll } := by
  have hs := step_case E in_buf d
  generalize step E in_buf d = d' at hs ⊢
  cases hs with
  | sink_skip _ _ => rfl
  | sink_fail _ hlt _ => omega
  | sink_ok _ hlt _ => omega
  | poll_fail h _ => rw [hpc] at h; cases h
  | poll_more h _ _ => rw [hpc] at h; cases h
  | poll_drained h _ _ => rw [hpc] at h; cases h
  | finish_done h _ _ => rw [hpc] at h; cases h
  | finish_more h _ _ _ => rw [hpc] at h; cases h
  | finish_fail h _ _ _ => rw [hpc] at h; cases h
  | finish_skip h _ => rw [hpc] at h; cases h
  | stay r h => rw [hpc] at h; cases h

/-- After a finish that returned MORE (and not DONE), the driver polls again
within two basic blocks, without any other call in between. -/
theorem poll_after_finish_more (d : Driver σ) (h : Linked E in_buf.length d) (res : Int)
    (hlast : d.calls.getLast? = some (Call.finish res))
    (hmore : res = E.HSER_FINISH_MORE) (hdone : res ≠ E.HSER_FINISH_DONE) :
    ∃ j r buf k, j ≤ 2 ∧
      (run E in_buf j d).calls = d.calls ++ [Call.poll 4096 r buf k] := by
  cases hpc : d.pc with
  | at_sink =>
    simp [Linked, hpc, hlast] at h
    have hstep := step_at_sink_skip E in_buf d hpc h.2.2
    have hcalls := step_at_poll_calls E in_buf (step E in_buf d) (by rw [hstep])
    have hrun : (run E in_buf 2 d).calls = d.calls ++ [poll_call E (step E in_buf d)] := by
      show (step E in_buf (step E in_buf d)).calls = _
      rw [hcalls, hstep]
    exact ⟨2, _, _, _, Nat.le_refl 2, hrun⟩
  | at_poll =>
    have hcalls : (run E in_buf 1 d).calls = d.calls ++ [poll_call E d] :=
      step_at_poll_calls E in_buf d hpc
    exact ⟨1, _, _, _, by omega, hcalls⟩
  | at_finish => simp [Linked, hpc, hlast] at h
  | returned r =>
    simp [Linked, hpc, hlast] at h
    rcases h with ⟨h, _⟩ | ⟨_, h, _⟩
    · exact absurd h hdone
    · exact absurd hmore h

/-- The first bad status of a chain that ends in `c` is that of `c`, if any. -/
theorem find_bad_concat (pre : List Call) (c : Call)
    (h : List.Chain' (follows E) (pre ++ [c])) :
    (pre ++ [c]).find? (Call.isBad E) = if c.isBad E = true then some c else none := by
  have hgood := chain_good E pre c h
  rw [List.find?_append, List.find?_eq_none.mpr (by simpa using hgood)]
  by_cases hc : c.isBad E = true <;> simp [List.find?, hc]

/-- The result of the driver, read off its last call. -/
theorem status_surfaced (d : Driver σ) (hinv : Inv E in_buf d) :
    (d.result = some .PYHS_FAILED_SINK ↔
      ∃ c, d.calls.find? (Call.isBad E) = some c ∧ c.isSink = true) ∧
    (d.result = some .PYHS_FAILED_POLL ↔
      ∃ c, d.calls.find? (Call.isBad E) = some c ∧ c.isPoll = true) ∧
    (d.result = some .PYHS_FAILED_FINISH ↔
      ∃ c, d.calls.find? (Call.isBad E) = some c ∧ c.isFinish = true) ∧
    (d.result = some .PYHS_OK →
      d.calls.find? (Call.isBad E) = none ∧
      d.calls.getLast? = some (Call.finish E.HSER_FINISH_DONE)) := by
  have hlinked := hinv.linked
  rcases List.eq_nil_or_concat d.calls with hnil | ⟨pre, c, hcalls⟩
  · rw [hnil]
    cases hpc : d.pc <;> simp [Linked, hpc, hnil, Driver.result] at hlinked ⊢
  have hchain := hinv.chain
  rw [hcalls] at hchain
  have hfind := find_bad_concat E pre c (by simpa using hchain)
  have hcalls' : d.calls = pre ++ [c] := by simpa using hcalls
  rw [hcalls', hfind]
  simp only [Linked, hcalls', List.getLast?_concat] at hlinked
  cases hpc : d.pc with
  | at_sink =>
    have hgood : c.isBad E = false := by
      cases c <;> simp [hpc, Call.isBad] at hlinked ⊢
      · exact hlinked.1
      · intro _; exact hlinked.1
    simp [hpc, Driver.result, hgood]
  | at_poll =>
    have hgood : c.isBad E = false := by
      cases c <;> simp [hpc, Call.isBad] at hlinked ⊢
      · exact hlinked
      · exact hlinked.1
      · intro _; exact hlinked.1
    simp [hpc, Driver.result, hgood]
  | at_finish =>
    have hgood : c.isBad E = false := by
      cases c <;> simp [hpc, Call.isBad] at hlinked ⊢
      exact hlinked.1
    simp [hpc, Driver.result, hgood]
  | returned r =>
    cases c with
    | alloc w l => simp [hpc] at hlinked
    | free => simp [hpc] at hlinked
    | sink o sz res k =>
      simp only [hpc] at hlinked
      obtain ⟨hres, hr⟩ := hlinked
      subst hr
      simp [Driver.result, hpc, Call.isBad, Call.isSink, Call.isPoll, Call.isFinish, hres]
    | poll sz res buf k =>
      simp only [hpc] at hlinked
      obtain ⟨hres, hr⟩ := hlinked
      subst hr
      simp [Driver.result, hpc, Call.isBad, Call.isSink, Call.isPoll, Call.isFinish, hres]
    | finish res =>
      simp only [hpc] at hlinked
      rcases hlinked with ⟨hres, hr⟩ | ⟨hdone, hmore, hr⟩
      · subst hr
        simp [Driver.result, hpc, Call.isBad, Call.isSink, Call.isPoll, Call.isFinish, hres]
      · subst hr
        simp [Driver.result, hpc, Call.isBad, Call.isSink, Call.isPoll, Call.isFinish, hdone,
          hmore]

theorem result_of_pc (d : Driver σ) (r : PyHS_encode_res) (h : d.pc = .returned r) :
    d.result = some r := by
  unfold Driver.result; rw [h]

/-- What `PyHS_encode` hands back once `_encode_to_out` has returned `r`. -/
theorem encode_result (out_buf : List UInt8) (fuel : Nat) (args : List PyObject)
    (in_buf : List UInt8) (hse : σ) (r : PyHS_encode_res)
    (hparse : PyArg_ParseTuple args = some in_buf)
    (halloc : E.alloc DEFAULT_HEATSHRINK_WINDOW_SZ2 DEFAULT_HEATSHRINK_LOOKAHEAD_SZ2 = some hse)
    (hret : (_encode_to_out E hse in_buf (uint8_array_create 1024) out_buf fuel).result =
      some r) :
    (PyHS_encode E out_buf fuel args).result = some (encode_outcome r (uint8_array_free
      (_encode_to_out E hse in_buf (uint8_array_create 1024) out_buf fuel).out_arr)) := by
  unfold PyHS_encode
  simp only [hparse, halloc, hret]

/-! ## Input bookkeeping -/

theorem sunk_append (l₁ l₂ : List Call) :
    sunk in_buf (l₁ ++ l₂) = sunk in_buf l₁ ++ sunk in_buf l₂ := by
  induction l₁ with
  | nil => rfl
  | cons c l ih => simp [sunk, ih]

theorem bookkeeping_init (hse : σ) (out_buf : List UInt8) (out_arr : UInt8Array) :
    Bookkeeping in_buf (Driver.init hse out_buf out_arr) where
  total_le := by simp [Driver.init]
  sunk_eq := by simp [Driver.init, sunk]
  at_sink := by simp [Driver.init]
  at_finish := by simp [Driver.init]

theorem bookkeeping_step (d : Driver σ) (h : Bookkeeping in_buf d)
    (hsize : in_buf.length < SIZE_T_MOD)
    (hoffer : ∀ c ∈ (step E in_buf d).calls, c.sinkWithinOffer = true) :
    Bookkeeping in_buf (step E in_buf d) := by
  have hs := step_case E in_buf d
  generalize step E in_buf d = d' at hs hoffer ⊢
  obtain ⟨hle, hsunk, hsink, hfinish⟩ := h
  cases hs with
  | sink_fail hpc hlt hr =>
    refine ⟨hle, ?_, ?_, ?_⟩
    · simp [sunk_append, sunk, sunk_chunk, sink_call, not_le.mpr hr, hsunk]
    · intro pre o sz res k post hsplit
      rcases split_concat hsplit with ⟨_, hp, hx⟩ | ⟨post', _, hl⟩
      · simp [sink_call] at hx
        obtain ⟨ho, hsz, _, _⟩ := hx
        subst hp ho hsz
        exact ⟨hsunk, hlt, rfl⟩
      · exact hsink pre o sz res k post' hl
    · intro pre res post hsplit
      rcases split_concat hsplit with ⟨_, hp, hx⟩ | ⟨post', _, hl⟩
      · simp [sink_call] at hx
      · exact hfinish pre res post' hl
  | sink_ok hpc hlt hr =>
    have hk : (sink_ret E in_buf d).sunk_size ≤ in_buf.length - d.total_sunk_size := by
      have := hoffer (sink_call E in_buf d) (by simp)
      simpa [Call.sinkWithinOffer, sink_call, hr] using this
    have hmod : (d.total_sunk_size + (sink_ret E in_buf d).sunk_size) % SIZE_T_MOD =
        d.total_sunk_size + (sink_ret E in_buf d).sunk_size :=
      Nat.mod_eq_of_lt (by omega)
    refine ⟨?_, ?_, ?_, ?_⟩
    · simp only [hmod]; omega
    · simp only [hmod]
      simp [sunk_append, sunk, sunk_chunk, sink_call, hr, hsunk, List.take_take]
      rw [min_eq_left hk, List.take_add]
    · intro pre o sz res k post hsplit
      rcases split_concat hsplit with ⟨_, hp, hx⟩ | ⟨post', _, hl⟩
      · simp [sink_call] at hx
        obtain ⟨ho, hsz, _, _⟩ := hx
        subst hp ho hsz
        exact ⟨hsunk, hlt, rfl⟩
      · exact hsink pre o sz res k post' hl
    · intro pre res post hsplit
      rcases split_concat hsplit with ⟨_, hp, hx⟩ | ⟨post', _, hl⟩
      · simp [sink_call] at hx
      · exact hfinish pre res post' hl
  | sink_skip hpc hge => exact ⟨hle, hsunk, hsink, hfinish⟩
  | poll_fail hpc hr =>
    refine ⟨hle, ?_, ?_, ?_⟩
    · simp [sunk_append, sunk, sunk_chunk, poll_call, hsunk]
    · intro pre o sz res k post hsplit
      rcases split_concat hsplit with ⟨_, hp, hx⟩ | ⟨post', _, hl⟩
      · simp [poll_call] at hx
      · exact hsink pre o sz res k post' hl
    · intro pre res post hsplit
      rcases split_concat hsplit with ⟨_, hp, hx⟩ | ⟨post', _, hl⟩
      · simp [poll_call] at hx
      · exact hfinish pre res post' hl
  | poll_more hpc hr hmore =>
    refine ⟨hle, ?_, ?_, ?_⟩
    · simp [sunk_append, sunk, sunk_chunk, poll_call, hsunk]
    · intro pre o sz res k post hsplit
      rcases split_concat hsplit with ⟨_, hp, hx⟩ | ⟨post', _, hl⟩
      · simp [poll_call] at hx
      · exact hsink pre o sz res k post' hl
    · intro pre res post hsplit
      rcases split_concat hsplit with ⟨_, hp, hx⟩ | ⟨post', _, hl⟩
      · simp [poll_call] at hx
      · exact hfinish pre res post' hl
  | poll_drained hpc hr hmore =>
    refine ⟨hle, ?_, ?_, ?_⟩
    · simp [sunk_append, sunk, sunk_chunk, poll_call, hsunk]
    · intro pre o sz res k post hsplit
      rcases split_concat hsplit with ⟨_, hp, hx⟩ | ⟨post', _, hl⟩
      · simp [poll_call] at hx
      · exact hsink pre o sz res k post' hl
    · intro pre res post hsplit
      rcases split_concat hsplit with ⟨_, hp, hx⟩ | ⟨post', _, hl⟩
      · simp [poll_call] at hx
      · exact hfinish pre res post' hl
  | finish_done hpc hge hdone =>
    have htot : d.total_sunk_size = in_buf.length := Nat.le_antisymm hle hge
    refine ⟨hle, ?_, ?_, ?_⟩
    · simp [sunk_append, sunk, sunk_chunk, finish_call, hsunk]
    · intro pre o sz res k post hsplit
      rcases split_concat hsplit with ⟨_, hp, hx⟩ | ⟨post', _, hl⟩
      · simp [finish_call] at hx
      · exact hsink pre o sz res k post' hl
    · intro pre res post hsplit
      rcases split_concat hsplit with ⟨_, hp, hx⟩ | ⟨post', _, hl⟩
      · subst hp
        rw [hsunk, htot, List.take_length]
      · exact hfinish pre res post' hl
  | finish_more hpc hge hdone hmore =>
    have htot : d.total_sunk_size = in_buf.length := Nat.le_antisymm hle hge
    refine ⟨hle, ?_, ?_, ?_⟩
    · simp [sunk_append, sunk, sunk_chunk, finish_call, hsunk]
    · intro pre o sz res k post hsplit
      rcases split_concat hsplit with ⟨_, hp, hx⟩ | ⟨post', _, hl⟩
      · simp [finish_call] at hx
      · exact hsink pre o sz res k post' hl
    · intro pre res post hsplit
      rcases split_concat hsplit with ⟨_, hp, hx⟩ | ⟨post', _, hl⟩
      · subst hp
        rw [hsunk, htot, List.take_length]
      · exact hfinish pre res post' hl
  | finish_fail hpc hge hdone hmore =>
    have htot : d.total_sunk_size = in_buf.length := Nat.le_antisymm hle hge
    refine ⟨hle, ?_, ?_, ?_⟩
    · simp [sunk_append, sunk, sunk_chunk, finish_call, hsunk]
    · intro pre o sz res k post hsplit
      rcases split_concat hsplit with ⟨_, hp, hx⟩ | ⟨post', _, hl⟩
      · simp [finish_call] at hx
      · exact hsink pre o sz res k post' hl
    · intro pre res post hsplit
      rcases split_concat hsplit with ⟨_, hp, hx⟩ | ⟨post', _, hl⟩
      · subst hp
        rw [hsunk, htot, List.take_length]
      · exact hfinish pre res post' hl
  | finish_skip hpc hlt => exact ⟨hle, hsunk, hsink, hfinish⟩
  | stay r hpc => exact ⟨hle, hsunk, hsink, hfinish⟩

theorem bookkeeping_run (hse : σ) (out_arr : UInt8Array) (out_buf : List UInt8) (n : Nat)
    (hsize : in_buf.length < SIZE_T_MOD)
    (hoffer : ∀ c ∈ (_encode_to_out E hse in_buf out_arr out_buf n).calls,
      c.sinkWithinOffer = true) :
    Bookkeeping in_buf (_encode_to_out E hse in_buf out_arr out_buf n) := by
  induction n with
  | zero => exact bookkeeping_init in_buf hse out_buf out_arr
  | succ n ih =>
    rw [encode_to_out_succ] at hoffer ⊢
    refine bookkeeping_step E in_buf _ (ih ?_) hsize hoffer
    intro c hc
    rcases step_calls E in_buf (_encode_to_out E hse in_buf out_arr out_buf n) with h | ⟨x, h⟩
    · exact hoffer c (by rw [h]; exact hc)
    · exact hoffer c (by rw [h]; exact List.mem_append_left _ hc)

/-! ## Termination -/

theorem run_succ_left (n : Nat) (d : Driver σ) :
    run E in_buf (n + 1) d = run E in_buf n (step E in_buf d) := by
  rw [Nat.add_comm, run_add]; rfl

/-- Once the driver has returned, more basic blocks change nothing. -/
theorem run_final (N k : Nat) (d : Driver σ) (r : PyHS_encode_res)
    (h : (run E in_buf N d).pc = .returned r) :
    run E in_buf (N + k) d = run E in_buf N d := by
  rw [run_add, run_returned E in_buf k _ r h]

/-- A property that holds of the driver up to the basic block at which it has
returned holds of it ever after. -/
theorem forall_run_of_returned (P : Driver σ → Prop) (N : Nat) (d : Driver σ)
    (r : PyHS_encode_res) (hret : (run E in_buf N d).pc = .returned r)
    (h : ∀ n, n ≤ N → P (run E in_buf n d)) : ∀ n, P (run E in_buf n d) := by
  intro n
  by_cases hn : n ≤ N
  · exact h n hn
  · obtain ⟨k, rfl⟩ := Nat.exists_eq_add_of_le (Nat.le_of_not_le hn)
    rw [run_final E in_buf N k d r hret]
    exact h N (Nat.le_refl N)

theorem finishMoreCount_concat (l : List Call) (c : Call) :
    finishMoreCount E (l ++ [c]) = finishMoreCount E l + if c.isFinishMore E then 1 else 0 := by
  unfold finishMoreCount
  by_cases hc : c.isFinishMore E = true <;> simp [List.filter_append, List.filter, hc]

/-- The poll loop is left: a driver at the poll that, some basic blocks on,
has a log not ending in a poll that returned MORE, reaches the test after the
loop or returns, with `total_sunk_size` and the finish calls unchanged. -/
theorem poll_exit (g : Nat) : ∀ d : Driver σ, d.pc = .at_poll →
    (∃ j, 1 ≤ j ∧ j ≤ g + 1 ∧ endsInPollMore E (run E in_buf j d).calls = false) →
    ∃ j, ((run E in_buf j d).pc = .at_finish ∨ ∃ r, (run E in_buf j d).pc = .returned r) ∧
      (run E in_buf j d).total_sunk_size = d.total_sunk_size ∧
      finishMoreCount E (run E in_buf j d).calls = finishMoreCount E d.calls := by
  induction g with
  | zero =>
    intro d hpc ⟨j, hj1, hj2, hends⟩
    have hj : j = 1 := by omega
    subst hj
    refine ⟨1, ?_⟩
    have hrun : run E in_buf 1 d = step E in_buf d := rfl
    rw [hrun] at hends ⊢
    have hs := step_case E in_buf d
    generalize step E in_buf d = d' at hs hends ⊢
    cases hs with
    | poll_fail _ hr =>
      exact ⟨Or.inr ⟨_, rfl⟩, rfl, by simp [finishMoreCount_concat, poll_call, Call.isFinishMore]⟩
    | poll_drained _ hr hm =>
      exact ⟨Or.inl rfl, rfl, by simp [finishMoreCount_concat, poll_call, Call.isFinishMore]⟩
    | poll_more _ hr hm =>
      simp [endsInPollMore, poll_call, Call.isPollMore, hm] at hends
    | sink_fail h _ _ => rw [hpc] at h; cases h
    | sink_ok h _ _ => rw [hpc] at h; cases h
    | sink_skip h _ => rw [hpc] at h; cases h
    | finish_done h _ _ => rw [hpc] at h; cases h
    | finish_more h _ _ _ => rw [hpc] at h; cases h
    | finish_fail h _ _ _ => rw [hpc] at h; cases h
    | finish_skip h _ => rw [hpc] at h; cases h
    | stay r h => rw [hpc] at h; cases h
  | succ g ih =>
    intro d hpc ⟨j, hj1, hj2, hends⟩
    have hs := step_case E in_buf d
    have hrun : run E in_buf 1 d = step E in_buf d := rfl
    by_cases hmore : 0 ≤ (poll_ret E d).res ∧ (poll_ret E d).res = E.HSER_POLL_MORE
    · -- the poll returned MORE: the driver polls again
      have hstep : step E in_buf d =
          { d with pc := .at_poll, hse := (poll_ret E d).hse,
                   out_buf := (poll_ret E d).out_buf,
                   calls := d.calls ++ [poll_call E d],
                   out_arr := uint8_array_insert d.out_arr (poll_ret E d).out_buf
                     (poll_ret E d).poll_size } := by
        generalize step E in_buf d = d' at hs ⊢
        cases hs with
        | poll_more _ _ _ => rfl
        | poll_fail _ hr => omega
        | poll_drained _ _ hm => exact absurd hmore.2 hm
        | sink_fail h _ _ => rw [hpc] at h; cases h
        | sink_ok h _ _ => rw [hpc] at h; cases h
        | sink_skip h _ => rw [hpc] at h; cases h
        | finish_done h _ _ => rw [hpc] at h; cases h
        | finish_more h _ _ _ => rw [hpc] at h; cases h
        | finish_fail h _ _ _ => rw [hpc] at h; cases h
        | finish_skip h _ => rw [hpc] at h; cases h
        | stay r h => rw [hpc] at h; cases h
      have hj : j ≠ 1 := by
        intro hj
        subst hj
        rw [hrun, hstep] at hends
        simp [endsInPollMore, poll_call, Call.isPollMore, hmore.2] at hends
      obtain ⟨j', rfl⟩ : ∃ j', j = j' + 1 := ⟨j - 1, by omega⟩
      rw [run_succ_left] at hends
      obtain ⟨i, hi1, hi2, hi3⟩ := ih (step E in_buf d) (by rw [hstep])
        ⟨j', by omega, by omega, hends⟩
      refine ⟨i + 1, ?_⟩
      rw [run_succ_left]
      refine ⟨hi1, ?_, ?_⟩
      · rw [hi2, hstep]
      · rw [hi3, hstep]
        simp [finishMoreCount_concat, poll_call, Call.isFinishMore]
    · -- the poll failed or drained the encoder
      refine ⟨1, ?_⟩
      rw [hrun]
      generalize step E in_buf d = d' at hs ⊢
      cases hs with
      | poll_fail _ hr =>
        exact ⟨Or.inr ⟨_, rfl⟩, rfl, by simp [finishMoreCount_concat, poll_call, Call.isFinishMore]⟩
      | poll_drained _ hr hm =>
        exact ⟨Or.inl rfl, rfl, by simp [finishMoreCount_concat, poll_call, Call.isFinishMore]⟩
      | poll_more _ hr hm => exact absurd ⟨hr, hm⟩ hmore
      | sink_fail h _ _ => rw [hpc] at h; cases h
      | sink_ok h _ _ => rw [hpc] at h; cases h
      | sink_skip h _ => rw [hpc] at h; cases h
      | finish_done h _ _ => rw [hpc] at h; cases h
      | finish_more h _ _ _ => rw [hpc] at h; cases h
      | finish_fail h _ _ _ => rw [hpc] at h; cases h
      | finish_skip h _ => rw [hpc] at h; cases h
      | stay r h => rw [hpc] at h; cases h

/-- The sink block: the driver returns, or goes on to poll having consumed
at least one byte, or goes on to poll with nothing left to sink. -/
theorem sink_block (d : Driver σ) (hpc : d.pc = .at_sink)
    (hsize : in_buf.length < SIZE_T_MOD)
    (hprog : ∀ c ∈ (step E in_buf d).calls, c.sinkProgress = true) :
    (∃ r, (step E in_buf d).pc = .returned r) ∨
    ((step E in_buf d).pc = .at_poll ∧
      finishMoreCount E (step E in_buf d).calls = finishMoreCount E d.calls ∧
      ((d.total_sunk_size < (step E in_buf d).total_sunk_size ∧
          (step E in_buf d).total_sunk_size ≤ in_buf.length) ∨
        (in_buf.length ≤ d.total_sunk_size ∧
          (step E in_buf d).total_sunk_size = d.total_sunk_size))) := by
  have hs := step_case E in_buf d
  generalize step E in_buf d = d' at hs hprog ⊢
  cases hs with
  | sink_fail _ _ _ => exact Or.inl ⟨_, rfl⟩
  | sink_ok _ hlt hr =>
    have hk := hprog (sink_call E in_buf d) (by simp)
    simp [Call.sinkProgress, sink_call] at hk
    right
    refine ⟨rfl, by simp [finishMoreCount_concat, sink_call, Call.isFinishMore], Or.inl ?_⟩
    have hmod : (d.total_sunk_size + (sink_ret E in_buf d).sunk_size) % SIZE_T_MOD =
        d.total_sunk_size + (sink_ret E in_buf d).sunk_size :=
      Nat.mod_eq_of_lt (by omega)
    simp only [hmod]
    omega
  | sink_skip _ hge => exact Or.inr ⟨rfl, rfl, Or.inr ⟨hge, rfl⟩⟩
  | poll_fail h _ => rw [hpc] at h; cases h
  | poll_more h _ _ => rw [hpc] at h; cases h
  | poll_drained h _ _ => rw [hpc] at h; cases h
  | finish_done h _ _ => rw [hpc] at h; cases h
  | finish_more h _ _ _ => rw [hpc] at h; cases h
  | finish_fail h _ _ _ => rw [hpc] at h; cases h
  | finish_skip h _ => rw [hpc] at h; cases h
  | stay r h => rw [hpc] at h; cases h

/-- The block after the poll loop: the driver returns, or starts the loop
body again after a finish that returned MORE, or starts it again with input
left to sink. -/
theorem finish_block (d : Driver σ) (hpc : d.pc = .at_finish) :
    (∃ r, (step E in_buf d).pc = .returned r) ∨
    ((step E in_buf d).pc = .at_sink ∧
      (step E in_buf d).total_sunk_size = d.total_sunk_size ∧
      ((finishMoreCount E (step E in_buf d).calls = finishMoreCount E d.calls + 1) ∨
        (finishMoreCount E (step E in_buf d).calls = finishMoreCount E d.calls ∧
          d.total_sunk_size < in_buf.length))) := by
  have hs := step_case E in_buf d
  generalize step E in_buf d = d' at hs ⊢
  cases hs with
  | finish_done _ _ _ => exact Or.inl ⟨_, rfl⟩
  | finish_fail _ _ _ _ => exact Or.inl ⟨_, rfl⟩
  | finish_more _ hge hdone hm =>
    exact Or.inr ⟨rfl, rfl, Or.inl (by
      simp [finishMoreCount_concat, finish_call, Call.isFinishMore, hm])⟩
  | finish_skip _ hlt => exact Or.inr ⟨rfl, rfl, Or.inr ⟨rfl, hlt⟩⟩
  | sink_fail h _ _ => rw [hpc] at h; cases h
  | sink_ok h _ _ => rw [hpc] at h; cases h
  | sink_skip h _ => rw [hpc] at h; cases h
  | poll_fail h _ => rw [hpc] at h; cases h
  | poll_more h _ _ => rw [hpc] at h; cases h
  | poll_drained h _ _ => rw [hpc] at h; cases h
  | stay r h => rw [hpc] at h; cases h

/-- One turn of the outer loop: the driver returns, or is back at the top of
the loop body with a smaller `loop_measure`. -/
theorem outer_turn (d₀ : Driver σ) (K : Nat) (hsize : in_buf.length < SIZE_T_MOD)
    (hsink : ∀ n, ∀ c ∈ (run E in_buf n d₀).calls, c.sinkProgress = true)
    (hpoll : ∀ n, ∃ m, n ≤ m ∧ endsInPollMore E (run E in_buf m d₀).calls = false)
    (hK : ∀ n, finishMoreCount E (run E in_buf n d₀).calls ≤ K)
    (n : Nat) (hpc : (run E in_buf n d₀).pc = .at_sink) :
    (∃ m r, (run E in_buf m d₀).pc = .returned r) ∨
    (∃ m, (run E in_buf m d₀).pc = .at_sink ∧
      loop_measure E in_buf K (run E in_buf m d₀) <
        loop_measure E in_buf K (run E in_buf n d₀)) := by
  rcases sink_block E in_buf _ hpc hsize (hsink (n + 1)) with ⟨r, hr⟩ | ⟨hp1, hf1, ht1⟩
  · exact Or.inl ⟨n + 1, r, hr⟩
  rw [← run_succ] at hp1 hf1 ht1
  obtain ⟨m, hm, hends⟩ := hpoll (n + 2)
  obtain ⟨j, rfl⟩ : ∃ j, m = (n + 1) + (j + 1) := ⟨m - (n + 2), by omega⟩
  rw [run_add] at hends
  obtain ⟨i, hi1, hi2, hi3⟩ := poll_exit E in_buf j (run E in_buf (n + 1) d₀) hp1
    ⟨j + 1, by omega, by omega, hends⟩
  rw [← run_add] at hi1 hi2 hi3
  rcases hi1 with hfin | ⟨r, hr⟩
  swap
  · exact Or.inl ⟨_, r, hr⟩
  rcases finish_block E in_buf _ hfin with ⟨r, hr⟩ | ⟨hp2, ht2, hf2⟩
  · exact Or.inl ⟨n + 1 + i + 1, r, hr⟩
  rw [← run_succ] at hp2 ht2 hf2
  right
  refine ⟨n + 1 + i + 1, hp2, ?_⟩
  have hKm := hK (n + 1 + i + 1)
  have hKn := hK n
  unfold loop_measure
  rw [ht2, hi2]
  rcases hf2 with hf2 | ⟨hf2, hlt⟩
  · rw [hf2, hi3, hf1] at hKm ⊢
    rcases ht1 with ⟨_, _⟩ | ⟨_, ht⟩
    · omega
    · rw [ht]; omega
  · rw [hf2, hi3, hf1]
    rw [hi2] at hlt
    rcases ht1 with ⟨_, _⟩ | ⟨hge, ht⟩
    · omega
    · rw [ht] at hlt; omega

/-- Under the three conditions on the encoder's behaviour, the driver started
at the top of the loop body returns. -/
theorem run_returns (d₀ : Driver σ) (K : Nat) (hsize : in_buf.length < SIZE_T_MOD)
    (hsink : ∀ n, ∀ c ∈ (run E in_buf n d₀).calls, c.sinkProgress = true)
    (hpoll : ∀ n, ∃ m, n ≤ m ∧ endsInPollMore E (run E in_buf m d₀).calls = false)
    (hK : ∀ n, finishMoreCount E (run E in_buf n d₀).calls ≤ K) :
    ∀ μ n, (run E in_buf n d₀).pc = .at_sink →
      loop_measure E in_buf K (run E in_buf n d₀) = μ →
      ∃ m r, (run E in_buf m d₀).pc = .returned r := by
  intro μ
  induction μ using Nat.strong_induction_on with
  | _ μ ih =>
    intro n hpc hμ
    rcases outer_turn E in_buf d₀ K hsize hsink hpoll hK n hpc with h | ⟨m, hm, hlt⟩
    · exact h
    · exact ih _ (hμ ▸ hlt) m hm rfl

end

/-! ## The claims -/

/-- C9: the output array of `_encode_to_out` only grows by appending: its
content after `n` basic blocks is a prefix of its content after any `n + k`
(so the number of bytes produced never decreases and earlier output is never
altered), and at every point, in particular on return, it is the initial
content followed by the first `poll_size` bytes of the buffer of every poll
with a non-negative status, in call order. -/
theorem encode_to_out_output_accumulates {σ : Type} (E : HeatshrinkEncoder σ) (hse : σ)
    (in_buf : List UInt8) (out_arr : UInt8Array) (out_buf : List UInt8) (n k : Nat) :
    (_encode_to_out E hse in_buf out_arr out_buf n).out_arr.items <+:
      (_encode_to_out E hse in_buf out_arr out_buf (n + k)).out_arr.items ∧
    (_encode_to_out E hse in_buf out_arr out_buf n).out_arr.items.length ≤
      (_encode_to_out E hse in_buf out_arr out_buf (n + k)).out_arr.items.length ∧
    (_encode_to_out E hse in_buf out_arr out_buf n).out_arr.items =
      out_arr.items ++ polled (_encode_to_out E hse in_buf out_arr out_buf n).calls := by
  have h0 : (Driver.init hse out_buf out_arr).out_arr.items =
      out_arr.items ++ polled (Driver.init hse out_buf out_arr).calls := by
    simp [Driver.init, polled]
  have hn := run_out_arr E in_buf out_arr.items n _ h0
  have hnk := run_out_arr E in_buf out_arr.items (n + k) _ h0
  obtain ⟨l, hl⟩ := run_calls E in_buf k (run E in_buf n (Driver.init hse out_buf out_arr))
  have hpre : (_encode_to_out E hse in_buf out_arr out_buf (n + k)).out_arr.items =
      (_encode_to_out E hse in_buf out_arr out_buf n).out_arr.items ++ polled l := by
    unfold _encode_to_out
    rw [hnk, run_add, hl, polled_append, hn, List.append_assoc]
  refine ⟨?_, ?_, hn⟩
  · rw [hpre]; exact List.prefix_append _ _
  · rw [hpre, List.length_append]; omega

/-- C7: the driver never misuses the encoder protocol.  Wherever a finish
call stands in the log of `_encode_to_out`, no later call is a sink; a later
call can only come after HSER_FINISH_MORE, and the next one is then a poll;
after a finish that returned HSER_FINISH_DONE there is no later call at all;
`total_sunk_size`, which is at least `in_size` then, keeps its value however
long the loop goes on; and when the log ends in a finish that returned
HSER_FINISH_MORE (and not DONE), the loop re-enters poll: the next call, made
within two basic blocks, is a poll on the full buffer. -/
theorem encode_to_out_no_call_after_finish {σ : Type} (E : HeatshrinkEncoder σ) (hse : σ)
    (in_buf : List UInt8) (out_arr : UInt8Array) (out_buf : List UInt8) (n k : Nat)
    (pre post : List Call) (res : Int)
    (hlog : (_encode_to_out E hse in_buf out_arr out_buf n).calls =
      pre ++ Call.finish res :: post) :
    (∀ c ∈ post, c.isSink = false) ∧
    (res = E.HSER_FINISH_DONE → post = []) ∧
    (∀ c, post.head? = some c → res = E.HSER_FINISH_MORE ∧ c.isPoll = true) ∧
    (_encode_to_out E hse in_buf out_arr out_buf (n + k)).total_sunk_size =
      (_encode_to_out E hse in_buf out_arr out_buf n).total_sunk_size ∧
    in_buf.length ≤ (_encode_to_out E hse in_buf out_arr out_buf n).total_sunk_size ∧
    (post = [] → res = E.HSER_FINISH_MORE → res ≠ E.HSER_FINISH_DONE →
      ∃ j r buf sz, j ≤ 2 ∧
        (_encode_to_out E hse in_buf out_arr out_buf (n + j)).calls =
          (_encode_to_out E hse in_buf out_arr out_buf n).calls ++ [Call.poll 4096 r buf sz]) := by
  have hinv := inv_encode_to_out E in_buf hse out_arr out_buf n
  have hmem : Call.finish res ∈ (_encode_to_out E hse in_buf out_arr out_buf n).calls := by
    rw [hlog]; simp
  have hnext : ∀ c, post.head? = some c →
      res = E.HSER_FINISH_MORE ∧ res ≠ E.HSER_FINISH_DONE ∧ c.isPoll = true := by
    intro c hc
    cases post with
    | nil => simp at hc
    | cons b post =>
      simp at hc
      subst hc
      have hf := chain_adjacent E pre post (Call.finish res) b (hlog ▸ hinv.chain)
      cases b <;> simp [follows, Call.isPoll] at hf ⊢
      exact ⟨hf.1, hf.2.1⟩
  refine ⟨hinv.no_resink pre _ post hlog rfl, ?_, fun c hc => ⟨(hnext c hc).1, (hnext c hc).2.2⟩,
    ?_, hinv.finished _ hmem rfl, ?_⟩
  · intro hdone
    cases post with
    | nil => rfl
    | cons b post => exact absurd hdone (hnext b rfl).2.1
  · unfold _encode_to_out
    rw [run_add]
    exact run_total_of_finish E in_buf k _ hinv _ hmem rfl
  · intro hnil hmore hdone
    subst hnil
    obtain ⟨j, r, buf, sz, hj, hcalls⟩ := poll_after_finish_more E in_buf _ hinv.linked res
      (by rw [hlog]; simp) hmore hdone
    refine ⟨j, r, buf, sz, hj, ?_⟩
    unfold _encode_to_out at hcalls ⊢
    rw [run_add]
    exact hcalls

/-- Witness of C7 on the sample encoder and the input `ABC`: the first finish
returns MORE and is followed by a poll and the second finish. -/
theorem encode_to_out_no_call_after_finish_witness :
    (∀ c ∈ [Call.poll 4096 0 [0] 1, Call.finish 0], c.isSink = false) ∧
    ((1 : Int) = toyEncoder.HSER_FINISH_DONE → [Call.poll 4096 0 [0] 1, Call.finish 0] = []) ∧
    (∀ c, [Call.poll 4096 0 [0] 1, Call.finish 0].head? = some c →
      (1 : Int) = toyEncoder.HSER_FINISH_MORE ∧ c.isPoll = true) ∧
    (_encode_to_out toyEncoder toyInit [65, 66, 67] (uint8_array_create 1024) [] (12 + 5)).total_sunk_size =
      (_encode_to_out toyEncoder toyInit [65, 66, 67] (uint8_array_create 1024) [] 12).total_sunk_size ∧
    [65, 66, 67].length ≤
      (_encode_to_out toyEncoder toyInit [65, 66, 67] (uint8_array_create 1024) [] 12).total_sunk_size ∧
    ([Call.poll 4096 0 [0] 1, Call.finish 0] = [] → (1 : Int) = toyEncoder.HSER_FINISH_MORE →
      (1 : Int) ≠ toyEncoder.HSER_FINISH_DONE →
      ∃ j r buf sz, j ≤ 2 ∧
        (_encode_to_out toyEncoder toyInit [65, 66, 67] (uint8_array_create 1024) [] (12 + j)).calls =
          (_encode_to_out toyEncoder toyInit [65, 66, 67] (uint8_array_create 1024) [] 12).calls ++
            [Call.poll 4096 r buf sz]) :=
  encode_to_out_no_call_after_finish toyEncoder toyInit [65, 66, 67] (uint8_array_create 1024) []
    12 5
    [Call.sink 0 3 0 2, Call.poll 4096 1 [65] 1, Call.poll 4096 0 [66] 1, Call.sink 2 1 0 1,
      Call.poll 4096 0 [67] 1]
    [Call.poll 4096 0 [0] 1, Call.finish 0] 1 (by decide)

/-- C10: polling is repeated until the encoder is drained.  In the log of
`_encode_to_out`, a sink call that is not the first call and every finish
call come right after a poll whose status was non-negative and not
HSER_POLL_MORE; and a poll that returned HSER_POLL_MORE (a non-negative
status) is directly followed by a poll on the full 4096-byte buffer: the next
call in the log is one, and when the log ends there the next basic block
makes one. -/
theorem encode_to_out_polls_until_drained {σ : Type} (E : HeatshrinkEncoder σ) (hse : σ)
    (in_buf : List UInt8) (out_arr : UInt8Array) (out_buf : List UInt8) (n : Nat)
    (pre post : List Call) (c : Call) (hmore : 0 ≤ E.HSER_POLL_MORE)
    (hlog : (_encode_to_out E hse in_buf out_arr out_buf n).calls = pre ++ c :: post) :
    (c.isSink = true → pre ≠ [] → ∃ p, pre.getLast? = some p ∧ p.isDrainedPoll E = true) ∧
    (c.isFinish = true → ∃ p, pre.getLast? = some p ∧ p.isDrainedPoll E = true) ∧
    (c.isPollMore E = true →
      (∀ x, post.head? = some x → x.isFullPoll = true) ∧
      (post = [] → ∃ res buf k,
        (_encode_to_out E hse in_buf out_arr out_buf (n + 1)).calls =
          (_encode_to_out E hse in_buf out_arr out_buf n).calls ++ [Call.poll 4096 res buf k])) := by
  have hinv := inv_encode_to_out E in_buf hse out_arr out_buf n
  have hprev : pre ≠ [] → ∃ p, pre.getLast? = some p ∧ follows E p c := by
    intro hne
    rcases List.eq_nil_or_concat pre with hp | ⟨pre', p, hp⟩
    · exact absurd hp hne
    · refine ⟨p, by simp [hp], ?_⟩
      refine chain_adjacent E pre' post p c ?_
      have := hinv.chain
      rw [hlog, hp] at this
      simpa using this
  refine ⟨?_, ?_, ?_⟩
  · intro hc hne
    obtain ⟨p, hp, hf⟩ := hprev hne
    refine ⟨p, hp, ?_⟩
    cases c <;> simp [Call.isSink] at hc
    cases p <;> simp [follows, Call.isDrainedPoll] at hf ⊢
    exact hf
  · intro hc
    have hne : pre ≠ [] := by
      intro hnil
      have := hinv.head_kind c (by rw [hlog, hnil]; rfl)
      rw [hc] at this
      exact absurd this (by simp)
    obtain ⟨p, hp, hf⟩ := hprev hne
    refine ⟨p, hp, ?_⟩
    cases c <;> simp [Call.isFinish] at hc
    cases p <;> simp [follows, Call.isDrainedPoll] at hf ⊢
    exact hf
  · intro hc
    cases c <;> simp [Call.isPollMore] at hc
    rename_i sz res buf k
    refine ⟨?_, ?_⟩
    · intro x hx
      cases post with
      | nil => simp at hx
      | cons b post =>
        simp at hx
        subst hx
        have hf := chain_adjacent E pre post _ b (hlog ▸ hinv.chain)
        cases b <;> simp [follows, Call.isFullPoll] at hf ⊢
        · exact absurd hc hf.2
        · exact hf.2.2
        · exact absurd hc hf.2
    · intro hnil
      subst hnil
      have hstep := step_after_poll_more E in_buf _ hinv.linked sz res buf k
        (by rw [hlog]; simp) hc hmore
      rw [encode_to_out_succ]
      exact ⟨_, _, _, hstep⟩

/-- Witness of C10 on the sample encoder and the input `ABC`: the first poll
returns MORE and is followed by a second poll. -/
theorem encode_to_out_polls_until_drained_witness :
    (0 : Int) ≤ toyEncoder.HSER_POLL_MORE ∧
    ((Call.poll 4096 1 [65] 1).isSink = true → [Call.sink 0 3 0 2] ≠ [] →
      ∃ p, [Call.sink 0 3 0 2].getLast? = some p ∧ p.isDrainedPoll toyEncoder = true) ∧
    ((Call.poll 4096 1 [65] 1).isFinish = true →
      ∃ p, [Call.sink 0 3 0 2].getLast? = some p ∧ p.isDrainedPoll toyEncoder = true) ∧
    ((Call.poll 4096 1 [65] 1).isPollMore toyEncoder = true →
      (∀ x, [Call.poll 4096 0 [66] 1].head? = some x → x.isFullPoll = true) ∧
      ([Call.poll 4096 0 [66] 1] = [] → ∃ res buf k,
        (_encode_to_out toyEncoder toyInit [65, 66, 67] (uint8_array_create 1024) [] (3 + 1)).calls =
          (_encode_to_out toyEncoder toyInit [65, 66, 67] (uint8_array_create 1024) [] 3).calls ++
            [Call.poll 4096 res buf k])) :=
  ⟨by decide,
   encode_to_out_polls_until_drained toyEncoder toyInit [65, 66, 67] (uint8_array_create 1024) []
      3 [Call.sink 0 3 0 2] [Call.poll 4096 0 [66] 1] (Call.poll 4096 1 [65] 1)
      (by decide) (by decide)⟩

/-- C4: status codes of the encoder are surfaced.  At every point of
`_encode_to_out`, called by `PyHS_encode`: it has returned PYHS_FAILED_SINK
exactly when the first bad status in the log is that of a sink (a negative
one), PYHS_FAILED_POLL exactly when it is that of a poll (a negative one),
PYHS_FAILED_FINISH exactly when it is that of a finish (neither DONE nor
MORE), and PYHS_OK only when there is no bad status and the last call is a
finish that returned HSER_FINISH_DONE.  `PyHS_encode` fails with RuntimeError
"encoder sink failed", "encoder poll failed" or "encoder finish failed"
exactly in the three failure cases, and returns an object exactly for
PYHS_OK. -/
theorem encode_surfaces_status {σ : Type} (E : HeatshrinkEncoder σ) (out_buf : List UInt8)
    (fuel : Nat) (args : List PyObject) (in_buf : List UInt8) (hse : σ)
    (hparse : PyArg_ParseTuple args = some in_buf)
    (halloc : E.alloc DEFAULT_HEATSHRINK_WINDOW_SZ2 DEFAULT_HEATSHRINK_LOOKAHEAD_SZ2 =
      some hse) :
    ((_encode_to_out E hse in_buf (uint8_array_create 1024) out_buf fuel).result =
        some .PYHS_FAILED_SINK ↔
      ∃ c, (_encode_to_out E hse in_buf (uint8_array_create 1024) out_buf fuel).calls.find?
        (Call.isBad E) = some c ∧ c.isSink = true) ∧
    ((_encode_to_out E hse in_buf (uint8_array_create 1024) out_buf fuel).result =
        some .PYHS_FAILED_POLL ↔
      ∃ c, (_encode_to_out E hse in_buf (uint8_array_create 1024) out_buf fuel).calls.find?
        (Call.isBad E) = some c ∧ c.isPoll = true) ∧
    ((_encode_to_out E hse in_buf (uint8_array_create 1024) out_buf fuel).result =
        some .PYHS_FAILED_FINISH ↔
      ∃ c, (_encode_to_out E hse in_buf (uint8_array_create 1024) out_buf fuel).calls.find?
        (Call.isBad E) = some c ∧ c.isFinish = true) ∧
    ((_encode_to_out E hse in_buf (uint8_array_create 1024) out_buf fuel).result =
        some .PYHS_OK →
      (_encode_to_out E hse in_buf (uint8_array_create 1024) out_buf fuel).calls.find?
        (Call.isBad E) = none ∧
      (_encode_to_out E hse in_buf (uint8_array_create 1024) out_buf fuel).calls.getLast? =
        some (Call.finish E.HSER_FINISH_DONE)) ∧
    ((PyHS_encode E out_buf fuel args).result =
        some (.error .RuntimeError "encoder sink failed") ↔
      (_encode_to_out E hse in_buf (uint8_array_create 1024) out_buf fuel).result =
        some .PYHS_FAILED_SINK) ∧
    ((PyHS_encode E out_buf fuel args).result =
        some (.error .RuntimeError "encoder poll failed") ↔
      (_encode_to_out E hse in_buf (uint8_array_create 1024) out_buf fuel).result =
        some .PYHS_FAILED_POLL) ∧
    ((PyHS_encode E out_buf fuel args).result =
        some (.error .RuntimeError "encoder finish failed") ↔
      (_encode_to_out E hse in_buf (uint8_array_create 1024) out_buf fuel).result =
        some .PYHS_FAILED_FINISH) ∧
    ((∃ v, (PyHS_encode E out_buf fuel args).result = some (.value v)) ↔
      (_encode_to_out E hse in_buf (uint8_array_create 1024) out_buf fuel).result =
        some .PYHS_OK) := by
  have hinv := inv_encode_to_out E in_buf hse (uint8_array_create 1024) out_buf fuel
  obtain ⟨h1, h2, h3, h4⟩ := status_surfaced E in_buf _ hinv
  refine ⟨h1, h2, h3, h4, ?_⟩
  cases hres : (_encode_to_out E hse in_buf (uint8_array_create 1024) out_buf fuel).result with
  | none =>
    have henc : (PyHS_encode E out_buf fuel args).result = none := by
      unfold PyHS_encode
      simp only [hparse, halloc, hres]
    simp [henc]
  | some r =>
    rw [encode_result E out_buf fuel args in_buf hse r hparse halloc hres]
    cases r <;> simp [encode_outcome]

/-- C8: input bookkeeping of the driver.  Provided the input length fits a
size_t and every successful sink in the log reported at most the length it
was offered: `total_sunk_size <= in_size` at every point, so
`in_size - total_sunk_size` never underflows; every sink call starts at the
offset `total_sunk_size` (the number of bytes sunk by the calls before it),
which is less than `in_size`, and is offered the `in_size - total_sunk_size`
bytes from there, which are exactly the unconsumed rest of the input; every
finish call is made with `total_sunk_size = in_size`, and the chunks consumed
by the sinks before it, concatenated in call order, are the whole input. -/
theorem encode_to_out_input_bookkeeping {σ : Type} (E : HeatshrinkEncoder σ) (hse : σ)
    (in_buf : List UInt8) (out_arr : UInt8Array) (out_buf : List UInt8) (n : Nat)
    (hsize : in_buf.length < SIZE_T_MOD)
    (hoffer : ∀ c ∈ (_encode_to_out E hse in_buf out_arr out_buf n).calls,
      c.sinkWithinOffer = true) :
    (_encode_to_out E hse in_buf out_arr out_buf n).total_sunk_size ≤ in_buf.length ∧
    sunk in_buf (_encode_to_out E hse in_buf out_arr out_buf n).calls =
      in_buf.take (_encode_to_out E hse in_buf out_arr out_buf n).total_sunk_size ∧
    (∀ pre o sz res k post,
      (_encode_to_out E hse in_buf out_arr out_buf n).calls =
        pre ++ Call.sink o sz res k :: post →
      o = (sunk in_buf pre).length ∧ o < in_buf.length ∧ sz = in_buf.length - o ∧
      sunk in_buf pre ++ (in_buf.drop o).take sz = in_buf) ∧
    (∀ pre res post,
      (_encode_to_out E hse in_buf out_arr out_buf n).calls =
        pre ++ Call.finish res :: post →
      (_encode_to_out E hse in_buf out_arr out_buf n).total_sunk_size = in_buf.length ∧
      sunk in_buf pre = in_buf) := by
  have hb := bookkeeping_run E in_buf hse out_arr out_buf n hsize hoffer
  have hinv := inv_encode_to_out E in_buf hse out_arr out_buf n
  refine ⟨hb.total_le, hb.sunk_eq, ?_, ?_⟩
  · intro pre o sz res k post hlog
    obtain ⟨h1, h2, h3⟩ := hb.at_sink pre o sz res k post hlog
    refine ⟨?_, h2, h3, ?_⟩
    · rw [h1, List.length_take]; omega
    · have hrest : (in_buf.drop o).take (in_buf.length - o) = in_buf.drop o :=
        List.take_of_length_le (by simp)
      rw [h1, h3, hrest, List.take_append_drop]
  · intro pre res post hlog
    refine ⟨Nat.le_antisymm hb.total_le ?_, hb.at_finish pre res post hlog⟩
    exact hinv.finished (Call.finish res) (by rw [hlog]; simp) rfl

/-- Witness of C8 on the sample encoder and the input `ABC`, at the second
sink call (offset 2, one byte offered). -/
theorem encode_to_out_input_bookkeeping_witness :
    (_encode_to_out toyEncoder toyInit [65, 66, 67] (uint8_array_create 1024) [] 12).total_sunk_size
      ≤ [65, 66, 67].length ∧
    sunk [65, 66, 67]
        (_encode_to_out toyEncoder toyInit [65, 66, 67] (uint8_array_create 1024) [] 12).calls =
      [65, 66, 67].take
        (_encode_to_out toyEncoder toyInit [65, 66, 67] (uint8_array_create 1024) [] 12).total_sunk_size ∧
    (2 = (sunk [65, 66, 67]
        [Call.sink 0 3 0 2, Call.poll 4096 1 [65] 1, Call.poll 4096 0 [66] 1]).length ∧
      2 < [65, 66, 67].length ∧ 1 = [65, 66, 67].length - 2 ∧
      sunk [65, 66, 67] [Call.sink 0 3 0 2, Call.poll 4096 1 [65] 1, Call.poll 4096 0 [66] 1] ++
        (([65, 66, 67] : List UInt8).drop 2).take 1 = [65, 66, 67]) :=
  have h := encode_to_out_input_bookkeeping toyEncoder toyInit [65, 66, 67]
    (uint8_array_create 1024) [] 12 (by decide) (by decide)
  ⟨h.1, h.2.1, h.2.2.1 [Call.sink 0 3 0 2, Call.poll 4096 1 [65] 1, Call.poll 4096 0 [66] 1]
    2 1 0 1 [Call.poll 4096 0 [67] 1, Call.finish 1, Call.poll 4096 0 [0] 1, Call.finish 0]
    (by decide)⟩

/-- C6: termination of the driver.  For every input (whose length fits a
size_t) and every encoder behaviour in which (i) each sink call the driver
makes returns a non-negative status and consumes at least 1 and at most the
offered number of bytes, (ii) the driver's log does not end in a poll that
returned HSER_POLL_MORE for ever, and (iii) finish returns HSER_FINISH_MORE at
most `K` times, the loop of `_encode_to_out` terminates: with enough fuel it
has returned.  It returns PYHS_OK when, moreover, no status in the log is
negative and every finish status is HSER_FINISH_DONE or HSER_FINISH_MORE. -/
theorem encode_to_out_terminates {σ : Type} (E : HeatshrinkEncoder σ) (hse : σ)
    (in_buf : List UInt8) (out_arr : UInt8Array) (out_buf : List UInt8) (K : Nat)
    (hsize : in_buf.length < SIZE_T_MOD)
    (hsink : ∀ n, ∀ c ∈ (_encode_to_out E hse in_buf out_arr out_buf n).calls,
      c.sinkProgress = true)
    (hpoll : ∀ n, ∃ m, n ≤ m ∧
      endsInPollMore E (_encode_to_out E hse in_buf out_arr out_buf m).calls = false)
    (hfinish : ∀ n,
      finishMoreCount E (_encode_to_out E hse in_buf out_arr out_buf n).calls ≤ K) :
    ∃ fuel r, (_encode_to_out E hse in_buf out_arr out_buf fuel).result = some r ∧
      ((∀ c ∈ (_encode_to_out E hse in_buf out_arr out_buf fuel).calls,
          c.statusNonneg = true ∧ c.finishDoneOrMore E = true) → r = .PYHS_OK) := by
  obtain ⟨m, r, hr⟩ := run_returns E in_buf (Driver.init hse out_buf out_arr) K hsize
    hsink hpoll hfinish _ 0 rfl rfl
  refine ⟨m, r, result_of_pc _ r hr, ?_⟩
  intro hgood
  have hlinked := (inv_encode_to_out E in_buf hse out_arr out_buf m).linked
  have hr' : (_encode_to_out E hse in_buf out_arr out_buf m).pc = .returned r := hr
  cases hlast : (_encode_to_out E hse in_buf out_arr out_buf m).calls.getLast? with
  | none => simp [Linked, hr', hlast] at hlinked
  | some c =>
    have hc := hgood c (List.mem_of_getLast?_eq_some hlast)
    cases c with
    | alloc w l => simp [Linked, hr', hlast] at hlinked
    | free => simp [Linked, hr', hlast] at hlinked
    | sink o sz res k =>
      simp [Linked, hr', hlast] at hlinked
      simp [Call.statusNonneg] at hc
      omega
    | poll sz res buf k =>
      simp [Linked, hr', hlast] at hlinked
      simp [Call.statusNonneg] at hc
      omega
    | finish res =>
      simp [Linked, hr', hlast] at hlinked
      simp [Call.finishDoneOrMore] at hc
      rcases hlinked with ⟨_, h⟩ | ⟨h1, h2, _⟩
      · exact h
      · rcases hc.2 with h | h
        · exact absurd h h1
        · exact absurd h h2

/-- Witness of C6 on the sample encoder and the input `ABC`: the driver has
returned after 10 basic blocks, with one HSER_FINISH_MORE. -/
theorem encode_to_out_terminates_witness :
    ∃ fuel r,
      (_encode_to_out toyEncoder toyInit [65, 66, 67] (uint8_array_create 1024) [] fuel).result =
        some r ∧
      ((∀ c ∈ (_encode_to_out toyEncoder toyInit [65, 66, 67] (uint8_array_create 1024) [] fuel).calls,
          c.statusNonneg = true ∧ c.finishDoneOrMore toyEncoder = true) → r = .PYHS_OK) :=
  encode_to_out_terminates toyEncoder toyInit [65, 66, 67] (uint8_array_create 1024) [] 1
    (by decide)
    (forall_run_of_returned toyEncoder [65, 66, 67]
      (fun d => ∀ c ∈ d.calls, c.sinkProgress = true) 10 _ .PYHS_OK (by decide) (by decide))
    (fun n => ⟨10 + n, Nat.le_add_left n 10, by
      have h := run_final toyEncoder [65, 66, 67] 10 n
        (Driver.init toyInit [] (uint8_array_create 1024)) .PYHS_OK (by decide)
      unfold _encode_to_out
      rw [h]
      decide⟩)
    (forall_run_of_returned toyEncoder [65, 66, 67]
      (fun d => finishMoreCount toyEncoder d.calls ≤ 1) 10 _ .PYHS_OK (by decide) (by decide))

/-- Witness of C4 on the sample encoder and the input `ABC`, where
`_encode_to_out` returns PYHS_OK and `PyHS_encode` returns an object. -/
theorem encode_surfaces_status_witness :
    ((_encode_to_out toyEncoder toyInit [65, 66, 67] (uint8_array_create 1024) [] 12).result =
        some .PYHS_OK →
      (_encode_to_out toyEncoder toyInit [65, 66, 67] (uint8_array_create 1024) [] 12).calls.find?
        (Call.isBad toyEncoder) = none ∧
      (_encode_to_out toyEncoder toyInit [65, 66, 67] (uint8_array_create 1024) [] 12).calls.getLast? =
        some (Call.finish toyEncoder.HSER_FINISH_DONE)) ∧
    ((∃ v, (PyHS_encode toyEncoder [] 12 [PyObject.str [65, 66, 67]]).result =
        some (.value v)) ↔
      (_encode_to_out toyEncoder toyInit [65, 66, 67] (uint8_array_create 1024) [] 12).result =
        some .PYHS_OK) :=
  have h := encode_surfaces_status toyEncoder [] 12 [PyObject.str [65, 66, 67]] [65, 66, 67]
    toyInit (by decide) (by decide)
  ⟨h.2.2.2.1, h.2.2.2.2.2.2.2⟩

/-- C5: `PyHS_encode` constructs its encoder with the defaults W = 11 and
L = 4.  Whenever its arguments parse, the first library call is
`heatshrink_encoder_alloc(11, 4)`; no alloc call in its log has other
parameters; and the defaults lie in the allowed ranges 4 <= W <= 15 and
3 <= L <= W - 1, so the construction is never in the BAD_PARAMS case. -/
theorem encode_constructs_with_defaults {σ : Type} (E : HeatshrinkEncoder σ)
    (out_buf : List UInt8) (fuel : Nat) (args : List PyObject) :
    (∀ in_buf, PyArg_ParseTuple args = some in_buf →
      (PyHS_encode E out_buf fuel args).calls.head? = some (Call.alloc 11 4)) ∧
    (∀ w l, Call.alloc w l ∈ (PyHS_encode E out_buf fuel args).calls →
      w = 11 ∧ l = 4 ∧ valid_params w l) ∧
    DEFAULT_HEATSHRINK_WINDOW_SZ2 = 11 ∧ DEFAULT_HEATSHRINK_LOOKAHEAD_SZ2 = 4 ∧
    valid_params DEFAULT_HEATSHRINK_WINDOW_SZ2 DEFAULT_HEATSHRINK_LOOKAHEAD_SZ2 := by
  have hv : valid_params 11 4 := by decide
  refine ⟨?_, ?_, rfl, rfl, hv⟩
  · intro in_buf hparse
    unfold PyHS_encode
    simp only [hparse]
    split
    · rfl
    · split <;> rfl
  · intro w l hmem
    have hdriver : ∀ hse in_buf n,
        Call.alloc w l ∉ (_encode_to_out E hse in_buf (uint8_array_create 1024) out_buf n).calls := by
      intro hse in_buf n hin
      have := (inv_encode_to_out E in_buf hse (uint8_array_create 1024) out_buf n).kinds _ hin
      simp [Call.isSink, Call.isPoll, Call.isFinish] at this
    unfold PyHS_encode at hmem
    split at hmem
    · simp at hmem
    · split at hmem
      · simp [DEFAULT_HEATSHRINK_WINDOW_SZ2, DEFAULT_HEATSHRINK_LOOKAHEAD_SZ2] at hmem
        exact ⟨hmem.1, hmem.2, hmem.1 ▸ hmem.2 ▸ hv⟩
      · dsimp only at hmem
        split at hmem
        · simp [DEFAULT_HEATSHRINK_WINDOW_SZ2, DEFAULT_HEATSHRINK_LOOKAHEAD_SZ2] at hmem
          rcases hmem with ⟨h1, h2⟩ | hmem
          · exact ⟨h1, h2, h1 ▸ h2 ▸ hv⟩
          · exact absurd hmem (hdriver _ _ _)
        · simp [DEFAULT_HEATSHRINK_WINDOW_SZ2, DEFAULT_HEATSHRINK_LOOKAHEAD_SZ2] at hmem
          rcases hmem with ⟨h1, h2⟩ | hmem
          · exact ⟨h1, h2, h1 ▸ h2 ▸ hv⟩
          · exact absurd hmem (hdriver _ _ _)

/-- Witness of C5 on the sample encoder and the input `ABC`. -/
theorem encode_constructs_with_defaults_witness :
    (PyHS_encode toyEncoder [] 12 [PyObject.str [65, 66, 67]]).calls.head? =
      some (Call.alloc 11 4) ∧
    (11 = 11 ∧ 4 = 4 ∧ valid_params 11 4) :=
  ⟨(encode_constructs_with_defaults toyEncoder [] 12 [PyObject.str [65, 66, 67]]).1
      [65, 66, 67] (by decide),
   (encode_constructs_with_defaults toyEncoder [] 12 [PyObject.str [65, 66, 67]]).2.1
      11 4 (by decide)⟩

/-- C3: the decode path is unimplemented.  For every `self` and `args`,
`PyHS_decode` returns no object: it fails with NotImplementedError carrying
the message "not implemented", and it makes no library call, so no decoder
state is touched. -/
theorem decode_not_implemented (self : Option PyObject) (args : List PyObject) :
    (PyHS_decode self args).result =
      some (.error .NotImplementedError "not implemented") ∧
    (PyHS_decode self args).calls = [] ∧
    ¬ ∃ v, (PyHS_decode self args).result = some (.value v) := by
  refine ⟨rfl, rfl, ?_⟩
  rintro ⟨v, hv⟩
  simp [PyHS_decode] at hv

/-- C1, as stated, fails: on the sample encoder, `decode(encode("ABC"))` is
not the byte string `ABC`. -/
theorem roundtrip_counterexample :
    ¬ (decode_of_encode toyEncoder [] 12 [65, 66, 67] =
      some (.value (.str [65, 66, 67]))) := by
  decide

/-- C1, amended: for every encoder and every byte string `s`,
`decode(encode(s))` is never `s`; whenever `encode` returns an object,
`decode` applied to it fails with NotImplementedError "not implemented". -/
theorem decode_of_encode_fails {σ : Type} (E : HeatshrinkEncoder σ) (out_buf : List UInt8)
    (fuel : Nat) (s : List UInt8) :
    decode_of_encode E out_buf fuel s ≠ some (.value (.str s)) ∧
    (∀ v, (PyHS_encode E out_buf fuel [PyObject.str s]).result = some (.value v) →
      decode_of_encode E out_buf fuel s =
        some (.error .NotImplementedError "not implemented")) := by
  have hval : ∀ v, (PyHS_encode E out_buf fuel [PyObject.str s]).result = some (.value v) →
      decode_of_encode E out_buf fuel s =
        some (.error .NotImplementedError "not implemented") := by
    intro v hv
    unfold decode_of_encode
    rw [hv]
    rfl
  refine ⟨?_, hval⟩
  intro h
  cases hres : (PyHS_encode E out_buf fuel [PyObject.str s]).result with
  | none => simp [decode_of_encode, hres] at h
  | some r =>
    cases r with
    | value v => rw [hval v hres] at h; simp at h
    | error exc msg => simp [decode_of_encode, hres] at h
    | parse_error => simp [decode_of_encode, hres] at h

/-- Witness of the amended C1 on the sample encoder and the input `ABC`. -/
theorem decode_of_encode_fails_witness :
    decode_of_encode toyEncoder [] 12 [65, 66, 67] =
      some (.error .NotImplementedError "not implemented") :=
  (decode_of_encode_fails toyEncoder [] 12 [65, 66, 67]).2 (PyObject.int none) (by decide)

/-- Before the output array is released, its count is the number of bytes the
polls handed over. -/
theorem encode_to_out_count {σ : Type} (E : HeatshrinkEncoder σ) (hse : σ)
    (in_buf : List UInt8) (out_buf : List UInt8) (n : Nat) :
    uint8_array_count (_encode_to_out E hse in_buf (uint8_array_create 1024) out_buf n).out_arr =
      some (polled (_encode_to_out E hse in_buf (uint8_array_create 1024) out_buf n).calls).length := by
  have hitems : (_encode_to_out E hse in_buf (uint8_array_create 1024) out_buf n).out_arr.items =
      (uint8_array_create 1024).items ++
        polled (_encode_to_out E hse in_buf (uint8_array_create 1024) out_buf n).calls :=
    run_out_arr E in_buf _ n _ (by simp [Driver.init, polled])
  have hfreed : ∀ k, (_encode_to_out E hse in_buf (uint8_array_create 1024) out_buf k).out_arr.freed
      = false := by
    intro k
    induction k with
    | zero => rfl
    | succ k ih =>
      rw [encode_to_out_succ]
      have hs := step_case E in_buf (_encode_to_out E hse in_buf (uint8_array_create 1024) out_buf k)
      generalize step E in_buf _ = d' at hs ⊢
      cases hs <;> simp [uint8_array_insert, ih]
  unfold uint8_array_count
  rw [hfreed n, hitems]
  simp [uint8_array_create]

/-- Whatever the encoder and the arguments, `PyHS_encode` never returns an
int with a defined value: the count is read after the array is released. -/
theorem encode_never_returns_count {σ : Type} (E : HeatshrinkEncoder σ)
    (out_buf : List UInt8) (fuel : Nat) (args : List PyObject) (n : Nat) :
    (PyHS_encode E out_buf fuel args).result ≠ some (.value (.int (some n))) := by
  unfold PyHS_encode
  split
  · simp
  · split
    · simp
    · dsimp only
      split
      · simp
      · rename_i eres _
        cases eres <;>
          simp [encode_outcome, PyInt_FromSize_t, uint8_array_count, uint8_array_free]

/-- C2, the code at a failing input: on the sample encoder and the input
`ABC` no encoder operation reports an error and the driver runs to
completion with 4 bytes accumulated in the output array (the sum of the
`poll_size` of its polls), but `PyHS_encode` releases the array before it
reads the count, so the int it returns has no defined value and is not 4. -/
theorem encode_reads_count_after_free :
    (_encode_to_out toyEncoder toyInit [65, 66, 67] (uint8_array_create 1024) [] 12).result =
      some .PYHS_OK ∧
    uint8_array_count
      (_encode_to_out toyEncoder toyInit [65, 66, 67] (uint8_array_create 1024) [] 12).out_arr =
      some 4 ∧
    (polled (_encode_to_out toyEncoder toyInit [65, 66, 67] (uint8_array_create 1024) [] 12).calls).length
      = 4 ∧
    (PyHS_encode toyEncoder [] 12 [PyObject.str [65, 66, 67]]).result =
      some (.value (.int none)) ∧
    (PyHS_encode toyEncoder [] 12 [PyObject.str [65, 66, 67]]).result ≠
      some (.value (.int (some 4))) := by
  decide

end PyHeatshrink
